import Mathlib

/-!
Verification of the Altbox placeholder-image generator (TypeScript sources
`src/util.ts`, `src/index.ts`, `src/svg.ts`) against its natural-language
specification.  Strings are modelled as lists of characters; JavaScript
numbers are modelled as exact rationals (ideal arithmetic), and the sRGB
luminance computation as exact reals.
-/

namespace Altbox

/-- A JavaScript string, modelled as its sequence of characters. -/
abbrev Str := List Char

/-- The apostrophe character, one of the five XML-reserved characters. -/
def squote : Char := Char.ofNat 39

/-- Whitespace, as recognised by JavaScript `trim`, `split(/\s+/)` and the
`\s` regex class (restricted to the ASCII range of our model). -/
def isWs (c : Char) : Bool :=
  c.toNat = 32 || c.toNat = 9 || c.toNat = 10 || c.toNat = 13 ||
    c.toNat = 11 || c.toNat = 12

/-- ASCII decimal digit, the JavaScript regex class `\d`. -/
def isDigit (c : Char) : Bool :=
  48 ≤ c.toNat && c.toNat ≤ 57

/-- Lowercase hexadecimal digit, the regex class `[0-9a-f]`. -/
def isLowerHexDigit (c : Char) : Bool :=
  isDigit c || (97 ≤ c.toNat && c.toNat ≤ 102)

/-- Hexadecimal digit of either case, the regex class `[0-9a-f]` under the
`i` flag (used by `normalizeHex`). -/
def isHexDigitCI (c : Char) : Bool :=
  isLowerHexDigit c || (65 ≤ c.toNat && c.toNat ≤ 70)

/-- `String.prototype.toLowerCase`, restricted to ASCII. -/
def toLowerJs (c : Char) : Char :=
  if 65 ≤ c.toNat ∧ c.toNat ≤ 90 then Char.ofNat (c.toNat + 32) else c

/-- Lower-case an entire string. -/
def toLowerStr (s : Str) : Str := s.map toLowerJs

/-- Drop leading whitespace. -/
def trimLeft (s : Str) : Str := s.dropWhile isWs

/-- Drop trailing whitespace. -/
def trimRight (s : Str) : Str := (s.reverse.dropWhile isWs).reverse

/-- `String.prototype.trim`. -/
def trim (s : Str) : Str := trimRight (trimLeft s)

/-- Numeric value of a digit string (the value `parseInt` assigns to a
run of decimal digits). -/
def digitsToNat (s : Str) : ℕ :=
  s.foldl (fun acc c => 10 * acc + (c.toNat - 48)) 0

/-- `clamp` from `src/util.ts`, on naturals:
`Math.min(Math.max(value, min), max)`. -/
def clampNat (v lo hi : ℕ) : ℕ := min (max v lo) hi

/-- Parsed `{width, height}` record from `src/util.ts`. -/
structure Dimensions where
  width : ℕ
  height : ℕ
deriving DecidableEq, Repr

/-- Matcher for the anchored regex `^(\d{1,4})x(\d{1,4})$` of `parseDims`:
returns the two digit groups on a full match. -/
def dimsMatch (s : Str) : Option (Str × Str) :=
  let a := s.takeWhile isDigit
  match s.drop a.length with
  | c :: b =>
      if c = 'x' ∧ 1 ≤ a.length ∧ a.length ≤ 4 ∧ 1 ≤ b.length ∧
          b.length ≤ 4 ∧ b.all isDigit then
        some (a, b)
      else
        none
  | [] => none

/-- `parseDims` from `src/util.ts`: trim, match `^(\d{1,4})x(\d{1,4})$`,
clamp each parsed integer into `[1, 8000]`.  The thrown
`Invalid dimensions` error is modelled as `none`.  The source's final
`width < MIN_DIMENSION || height < MIN_DIMENSION` re-check is kept even
though it can never fire after clamping. -/
def parseDims (value : Str) : Option Dimensions :=
  let trimmed := trim value
  match dimsMatch trimmed with
  | none => none
  | some (a, b) =>
      let width := clampNat (digitsToNat a) 1 8000
      let height := clampNat (digitsToNat b) 1 8000
      if width < 1 ∨ height < 1 then none
      else some ⟨width, height⟩

/-- The claim's own pattern, written from the spec's words: the token must
match exactly `\d{1,4}x\d{1,4}` as a full-string match, with a lowercase
literal separator.  (This is deliberately a second definition, to be
compared against `parseDims`, which the source applies after trimming.) -/
def specDimsPattern (s : Str) : Bool :=
  let a := s.takeWhile isDigit
  match s.drop a.length with
  | c :: b =>
      decide (c = 'x') && decide (1 ≤ a.length) && decide (a.length ≤ 4) &&
        decide (1 ≤ b.length) && decide (b.length ≤ 4) && b.all isDigit
  | [] => false

theorem clampNat_one_le (v : ℕ) : 1 ≤ clampNat v 1 8000 := by
  unfold clampNat
  omega

theorem dimsMatch_isSome_iff_spec (s : Str) :
    (dimsMatch s).isSome = true ↔ specDimsPattern s = true := by
  unfold dimsMatch specDimsPattern
  cases h : s.drop (s.takeWhile isDigit).length with
  | nil => simp [h]
  | cons c b =>
      simp only [h]
      by_cases hcond : c = 'x' ∧ 1 ≤ (s.takeWhile isDigit).length ∧
          (s.takeWhile isDigit).length ≤ 4 ∧ 1 ≤ b.length ∧
          b.length ≤ 4 ∧ b.all isDigit = true
      · rw [if_pos hcond]
        obtain ⟨h1, h2, h3, h4, h5, h6⟩ := hcond
        simp [h1, h2, h3, h4, h5, h6]
      · rw [if_neg hcond]
        simp only [Option.isSome_none, Bool.false_eq_true, false_iff]
        intro hall
        apply hcond
        simp only [Bool.and_eq_true, decide_eq_true_eq] at hall
        exact ⟨hall.1.1.1.1.1, hall.1.1.1.1.2, hall.1.1.1.2, hall.1.1.2,
          hall.1.2, hall.2⟩

/-- Claim C1 (amended): `parseDims` succeeds exactly when the *trimmed*
token matches `\d{1,4}x\d{1,4}` (lowercase literal `x`, full match), and
on success returns the two parsed integers each clamped into `[1, 8000]`. -/
theorem claim1_amended (s : Str) :
    ((parseDims s).isSome = true ↔ specDimsPattern (trim s) = true) ∧
    (∀ a b, dimsMatch (trim s) = some (a, b) →
      parseDims s = some ⟨clampNat (digitsToNat a) 1 8000,
        clampNat (digitsToNat b) 1 8000⟩) := by
  constructor
  · rw [← dimsMatch_isSome_iff_spec]
    unfold parseDims
    cases h : dimsMatch (trim s) with
    | none => simp [h]
    | some p =>
        obtain ⟨a, b⟩ := p
        have ha := clampNat_one_le (digitsToNat a)
        have hb := clampNat_one_le (digitsToNat b)
        simp only [h, Option.isSome_some, iff_true]
        rw [if_neg (by omega)]
        simp
  · intro a b h
    unfold parseDims
    have ha := clampNat_one_le (digitsToNat a)
    have hb := clampNat_one_le (digitsToNat b)
    simp only [h]
    rw [if_neg (by omega)]

/-- Claim C1 witness: the amended theorem applied at the token `600x300`. -/
theorem claim1_witness :
    parseDims ("600x300").data =
      some ⟨clampNat (digitsToNat ("600").data) 1 8000,
        clampNat (digitsToNat ("300").data) 1 8000⟩ :=
  (claim1_amended ("600x300").data).2 ("600").data ("300").data (by decide)

/-- Claim C1 counterexample: on the token `" 600x300"` (leading space)
`parseDims` succeeds although the token does not match the claim's pattern
`\d{1,4}x\d{1,4}`; the source trims its input first. -/
theorem claim1_counterexample :
    (parseDims (" 600x300").data).isSome = true ∧
      specDimsPattern (" 600x300").data = false := by
  decide

/-! ## Color resolver (`parseColor` and helpers from `src/util.ts`) -/

/-- Input normalization of `parseColor` and `colorToRgb`:
`input.trim().toLowerCase()`. -/
def normColor (input : Str) : Str := toLowerStr (trim input)

/-- Modelled from the spec: the source imports a fixed named-color table
`CSS_COLORS` from `src/colors.ts`, a file that is not present under
`src/`.  The spec describes it as a fixed table of CSS-style color names
mapped to their hex equivalents; we model a representative table of the
sixteen CSS basic colors (which includes every name exercised by the
repository tests). -/
def cssColors : List (Str × Str) :=
  [(("black").data, ("#000000").data),
   (("silver").data, ("#c0c0c0").data),
   (("gray").data, ("#808080").data),
   (("white").data, ("#ffffff").data),
   (("maroon").data, ("#800000").data),
   (("red").data, ("#ff0000").data),
   (("purple").data, ("#800080").data),
   (("fuchsia").data, ("#ff00ff").data),
   (("green").data, ("#008000").data),
   (("lime").data, ("#00ff00").data),
   (("olive").data, ("#808000").data),
   (("yellow").data, ("#ffff00").data),
   (("navy").data, ("#000080").data),
   (("blue").data, ("#0000ff").data),
   (("teal").data, ("#008080").data),
   (("aqua").data, ("#00ffff").data)]

/-- Key lookup in the named-color table (the `normalized in CSS_COLORS`
check followed by `CSS_COLORS[normalized]`). -/
def lookupColor (n : Str) : List (Str × Str) → Option Str
  | [] => none
  | (k, v) :: rest => if n = k then some v else lookupColor n rest

/-- The `'t'`/`'transparent'` literal check of `parseColor`. -/
def isTransTok (n : Str) : Bool :=
  decide (n = ("t").data) || decide (n = ("transparent").data)

/-- Shorthand-hex expansion: each digit is duplicated
(`value.split('').map((char) => char + char).join('')`). -/
def expandHex3 : Str → Str
  | [] => []
  | c :: rest => c :: c :: expandHex3 rest

/-- Matcher for the regex `^#([0-9a-f]{3}|[0-9a-f]{6})$` on the normalized
(already lower-cased) input. -/
def hexForm (n : Str) : Bool :=
  match n with
  | c :: h =>
      decide (c = '#') && (decide (h.length = 3) || decide (h.length = 6)) &&
        h.all isLowerHexDigit
  | [] => false

/-- The value `parseColor` produces in its hex branch: 3-digit shorthand
expanded, 6-digit form returned as-is. -/
def hexValue (n : Str) : Str :=
  match n with
  | c :: h => if h.length = 3 then c :: expandHex3 h else n
  | [] => n

/-- Capture group of `\(\s*([^)]+)\s*\)$` applied to `rest`, the part of
the input after the functional-notation prefix (prefix includes the open
paren).  The match requires the string to end with its only `)` and to
have at least one character in between; greedy backtracking makes the
capture start after the leading whitespace — unless everything between
the parens is whitespace, in which case only the last of those
characters is captured. -/
def innerCapture (rest : Str) : Option Str :=
  match rest.reverse with
  | [] => none
  | c :: revBody =>
      if c = ')' ∧ revBody ≠ [] ∧ ')' ∉ revBody then
        some (if revBody.reverse.dropWhile isWs = []
              then [revBody.headD ')']
              else revBody.reverse.dropWhile isWs)
      else none

/-- Try a functional-notation prefix (such as `rgb(`) and capture the
component text. -/
def prefCapture (tag : Str) (n : Str) : Option Str :=
  if n.take tag.length = tag then innerCapture (n.drop tag.length) else none

/-- Matcher for `^rgba?\(\s*([^)]+)\s*\)$`: the `rgba(` and `rgb(`
prefixes are mutually exclusive, so trying them in sequence is exactly
the regex alternation. -/
def rgbCapture (n : Str) : Option Str :=
  match prefCapture (("rgba(").data) n with
  | some cap => some cap
  | none => prefCapture (("rgb(").data) n

/-- Matcher for `^hsla?\(\s*([^)]+)\s*\)$`. -/
def hslCapture (n : Str) : Option Str :=
  match prefCapture (("hsla(").data) n with
  | some cap => some cap
  | none => prefCapture (("hsl(").data) n

/-- The `normalized.startsWith('rgba')` tag choice. -/
def rgbTag (n : Str) : Str :=
  if n.take 4 = ("rgba").data then ("rgba").data else ("rgb").data

/-- The `normalized.startsWith('hsla')` tag choice. -/
def hslTag (n : Str) : Str :=
  if n.take 4 = ("hsla").data then ("hsla").data else ("hsl").data

theorem dropWhile_length_le {α : Type} (p : α → Bool) :
    ∀ s : List α, (s.dropWhile p).length ≤ s.length := by
  intro s
  induction s with
  | nil => exact Nat.le_refl _
  | cons c rest ih =>
      rw [List.dropWhile_cons]
      by_cases h : p c = true
      · rw [if_pos h]
        exact Nat.le_succ_of_le ih
      · rw [if_neg h]

/-- `String.prototype.split(',')`, which never returns an empty list:
each comma ends the group being built, every other character is prepended
to the first group. -/
def splitComma (s : Str) : List Str :=
  s.foldr
    (fun c acc =>
      if c = ',' then [] :: acc else (c :: acc.headD []) :: acc.tail)
    [[]]

/-- `Array.prototype.join(sep)`. -/
def joinSep (sep : Str) : List Str → Str
  | [] => []
  | [x] => x
  | x :: xs => x ++ sep ++ joinSep sep xs

/-- The component normalization of the functional branches:
`capture.split(',').map((part) => part.trim()).join(', ')`. -/
def rejoin (cap : Str) : Str :=
  joinSep ((", ").data) ((splitComma cap).map trim)

/-- `parseColor` from `src/util.ts`.  The thrown `Invalid color` error is
modelled as `none`. -/
def parseColor (input : Str) : Option Str :=
  let n := normColor input
  if n = [] then none
  else if isTransTok n then some (("transparent").data)
  else
    match lookupColor n cssColors with
    | some hex => some hex
    | none =>
      if hexForm n then some (hexValue n)
      else
        match rgbCapture n with
        | some cap => some (rgbTag n ++ ('(' :: (rejoin cap ++ [')'])))
        | none =>
          match hslCapture n with
          | some cap => some (hslTag n ++ ('(' :: (rejoin cap ++ [')'])))
          | none => none

theorem parseColor_none_iff (s : Str) :
    parseColor s = none ↔
      isTransTok (normColor s) = false ∧
      lookupColor (normColor s) cssColors = none ∧
      hexForm (normColor s) = false ∧
      rgbCapture (normColor s) = none ∧
      hslCapture (normColor s) = none := by
  unfold parseColor
  by_cases h0 : normColor s = []
  · rw [h0]
    decide
  · rw [if_neg h0]
    by_cases h1 : isTransTok (normColor s) = true
    · simp [h1]
    · rw [Bool.not_eq_true] at h1
      simp only [h1, Bool.false_eq_true, if_false, true_and]
      cases h2 : lookupColor (normColor s) cssColors with
      | some v => simp
      | none =>
          simp only [true_and]
          by_cases h3 : hexForm (normColor s) = true
          · simp [h3]
          · rw [Bool.not_eq_true] at h3
            simp only [h3, Bool.false_eq_true, if_false, true_and]
            cases h4 : rgbCapture (normColor s) with
            | some cap => simp
            | none =>
                simp only [true_and]
                cases h5 : hslCapture (normColor s) with
                | some cap => simp
                | none => simp

theorem parseColor_trans (s : Str) (h : isTransTok (normColor s) = true) :
    parseColor s = some (("transparent").data) := by
  have h0 : normColor s ≠ [] := by
    intro he
    rw [he] at h
    exact absurd h (by decide)
  unfold parseColor
  rw [if_neg h0, if_pos h]

theorem parseColor_named (s : Str) (v : Str)
    (h1 : isTransTok (normColor s) = false)
    (h2 : lookupColor (normColor s) cssColors = some v) :
    parseColor s = some v := by
  have h0 : normColor s ≠ [] := by
    intro he
    rw [he] at h2
    have hn : lookupColor ([] : Str) cssColors = none := by decide
    rw [hn] at h2
    exact Option.noConfusion h2
  unfold parseColor
  rw [if_neg h0]
  simp only [h1, Bool.false_eq_true, if_false, h2]

theorem parseColor_hex (s : Str)
    (h1 : isTransTok (normColor s) = false)
    (h2 : lookupColor (normColor s) cssColors = none)
    (h3 : hexForm (normColor s) = true) :
    parseColor s = some (hexValue (normColor s)) := by
  have h0 : normColor s ≠ [] := by
    intro he
    rw [he] at h3
    exact absurd h3 (by decide)
  unfold parseColor
  rw [if_neg h0]
  simp only [h1, Bool.false_eq_true, if_false, h2, h3, if_true]

theorem parseColor_rgb (s : Str) (cap : Str)
    (h1 : isTransTok (normColor s) = false)
    (h2 : lookupColor (normColor s) cssColors = none)
    (h3 : hexForm (normColor s) = false)
    (h4 : rgbCapture (normColor s) = some cap) :
    parseColor s = some (rgbTag (normColor s) ++ ('(' :: (rejoin cap ++ [')']))) := by
  have h0 : normColor s ≠ [] := by
    intro he
    rw [he] at h4
    have hn : rgbCapture ([] : Str) = none := by decide
    rw [hn] at h4
    exact Option.noConfusion h4
  unfold parseColor
  rw [if_neg h0]
  simp only [h1, Bool.false_eq_true, if_false, h2, h3, h4]

theorem parseColor_hsl (s : Str) (cap : Str)
    (h1 : isTransTok (normColor s) = false)
    (h2 : lookupColor (normColor s) cssColors = none)
    (h3 : hexForm (normColor s) = false)
    (h4 : rgbCapture (normColor s) = none)
    (h5 : hslCapture (normColor s) = some cap) :
    parseColor s = some (hslTag (normColor s) ++ ('(' :: (rejoin cap ++ [')']))) := by
  have h0 : normColor s ≠ [] := by
    intro he
    rw [he] at h5
    have hn : hslCapture ([] : Str) = none := by decide
    rw [hn] at h5
    exact Option.noConfusion h5
  unfold parseColor
  rw [if_neg h0]
  simp only [h1, Bool.false_eq_true, if_false, h2, h3, h4, h5]

/-- Claim C2: `parseColor` resolves its trimmed lower-cased input in the
fixed precedence order — transparent literal, named-color table, 3/6-digit
hex (shorthand expanded), `rgb()`/`rgba()` passthrough with components
rejoined by comma-space, `hsl()`/`hsla()` likewise — and fails exactly
when the normalized input matches none of these forms (the empty string
matches none of them). -/
theorem claim2_resolution :
    (∀ s : Str, parseColor s = none ↔
      isTransTok (normColor s) = false ∧
      lookupColor (normColor s) cssColors = none ∧
      hexForm (normColor s) = false ∧
      rgbCapture (normColor s) = none ∧
      hslCapture (normColor s) = none) ∧
    (∀ s, isTransTok (normColor s) = true →
      parseColor s = some (("transparent").data)) ∧
    (∀ s v, isTransTok (normColor s) = false →
      lookupColor (normColor s) cssColors = some v → parseColor s = some v) ∧
    (∀ s, isTransTok (normColor s) = false →
      lookupColor (normColor s) cssColors = none →
      hexForm (normColor s) = true →
      parseColor s = some (hexValue (normColor s))) ∧
    (∀ s cap, isTransTok (normColor s) = false →
      lookupColor (normColor s) cssColors = none →
      hexForm (normColor s) = false →
      rgbCapture (normColor s) = some cap →
      parseColor s = some (rgbTag (normColor s) ++ ('(' :: (rejoin cap ++ [')'])))) ∧
    (∀ s cap, isTransTok (normColor s) = false →
      lookupColor (normColor s) cssColors = none →
      hexForm (normColor s) = false →
      rgbCapture (normColor s) = none →
      hslCapture (normColor s) = some cap →
      parseColor s = some (hslTag (normColor s) ++ ('(' :: (rejoin cap ++ [')'])))) ∧
    parseColor ("red").data = some (("#ff0000").data) ∧
    parseColor ("t").data = some (("transparent").data) ∧
    parseColor ("#0f0").data = some (("#00ff00").data) ∧
    parseColor ("#zzz").data = none :=
  ⟨parseColor_none_iff, parseColor_trans, parseColor_named, parseColor_hex,
    parseColor_rgb, parseColor_hsl, by decide, by decide, by decide, by decide⟩

/-- Claim C2 witness: the named-color conjunct applied at `"RED "`, whose
normalized form resolves through the table. -/
theorem claim2_witness :
    parseColor ("RED ").data = some (("#ff0000").data) :=
  claim2_resolution.2.2.1 ("RED ").data (("#ff0000").data) (by decide) (by decide)

/-! ## Text wrapper (`wrapText` and helpers from `src/util.ts`) -/

/-- Options record of `wrapText`; `maxLines` defaults to 2. -/
structure WrapOptions where
  text : Str
  maxWidth : ℚ
  fontSize : ℚ
  wrap : Bool
  maxLines : Option ℕ := none
deriving DecidableEq

/-- The per-line character budget
`Math.max(1, Math.floor(maxWidth / (fontSize * 0.6)))`.  JavaScript
division by zero yields `Infinity`; over `ℚ` we take the total-division
convention `q / 0 = 0`, which affects only the degenerate `fontSize = 0`
call (never reached from the renderer, whose font size is clamped to
`[12, 128]`). -/
def budget (maxWidth fontSize : ℚ) : ℕ :=
  (max 1 ⌊maxWidth / (fontSize * (0.6 : ℚ))⌋).toNat

/-- `collapseWithEllipsis` from `src/util.ts`. -/
def collapseWithEllipsis (text : Str) (maxChars : ℕ) : Str :=
  if text.length ≤ maxChars then text
  else if maxChars ≤ 3 then List.replicate maxChars '.'
  else text.take (maxChars - 3) ++ ("...").data

/-- The slicing loop of `chunkWord`, driven by a step count that bounds
the number of slices (the word's length always suffices when the slice
size is positive). -/
def chunkWordGo (size : ℕ) : ℕ → Str → List Str
  | _, [] => []
  | 0, _ => []
  | fuel + 1, w => w.take size :: chunkWordGo size fuel (w.drop size)

/-- `chunkWord` from `src/util.ts`: hard-chunk a word into `size`-sized
slices.  With `size = 0` the source would loop forever; that case is
unreachable (the budget is at least 1) and modelled as `[]`. -/
def chunkWord (w : Str) (size : ℕ) : List Str :=
  if size = 0 then [] else chunkWordGo size w.length w

/-- Does a word end here — at the end of the text or before whitespace? -/
def wordBreak (rest : Str) : Bool :=
  match rest with
  | [] => true
  | d :: _ => isWs d

/-- `trimmed.split(/\s+/)` on an already-trimmed string: the maximal runs
of non-whitespace characters, in order.  (On a string with leading
whitespace the JavaScript split would prepend an empty token; `wrapText`
only ever splits trimmed text, where the two agree.) -/
def splitWs : Str → List Str
  | [] => []
  | c :: rest =>
      if isWs c then splitWs rest
      else if wordBreak rest then [c] :: splitWs rest
      else (c :: (splitWs rest).headD []) :: (splitWs rest).tail

/-- The `pushCurrent` closure of `wrapText`: flush a nonempty pending
line. -/
def pushCurrent (lines : List Str) (current : Str) : List Str :=
  if current = [] then lines else lines ++ [current]

/-- One iteration of the greedy word-packing loop of `wrapText`; the
candidate line is `current ? current + ' ' + word : word`. -/
def packStep (cpl : ℕ) (st : List Str × Str) (word : Str) : List Str × Str :=
  if cpl < word.length then
    (pushCurrent st.1 st.2 ++ chunkWord word cpl, [])
  else if (if st.2 = [] then word else st.2 ++ (' ' :: word)).length ≤ cpl then
    (st.1, if st.2 = [] then word else st.2 ++ (' ' :: word))
  else
    (pushCurrent st.1 st.2, word)

/-- The full greedy packing pass of `wrapText` (loop plus final flush). -/
def greedyLines (cpl : ℕ) (words : List Str) : List Str :=
  let st := words.foldl (packStep cpl) ([], [])
  pushCurrent st.1 st.2

/-- `wrapText` from `src/util.ts`. -/
def wrapText (o : WrapOptions) : List Str :=
  let trimmed := trim o.text
  if trimmed = [] then []
  else if o.wrap = false then [trimmed]
  else
    let charsPerLine := budget o.maxWidth o.fontSize
    if trimmed.length ≤ charsPerLine then [trimmed]
    else
      let lines := greedyLines charsPerLine (splitWs trimmed)
      let maxLines := o.maxLines.getD 2
      if lines.length ≤ maxLines then lines
      else
        (lines.take maxLines).set (maxLines - 1)
          (collapseWithEllipsis (trim (joinSep [' '] (lines.drop (maxLines - 1))))
            charsPerLine)

/-! ### Facts about trimming and the packed lines -/

theorem dropWhile_head_false {α : Type} (p : α → Bool) (l : List α) (c : α)
    (rest : List α) (h : l.dropWhile p = c :: rest) : p c = false := by
  induction l with
  | nil => exact absurd h (by simp)
  | cons a l ih =>
      rw [List.dropWhile_cons] at h
      by_cases hp : p a = true
      · rw [if_pos hp] at h
        exact ih h
      · rw [if_neg hp] at h
        cases h
        exact Bool.not_eq_true _ |>.mp hp

theorem getLast?_cons_ne_nil {α : Type} (c : α) (l : List α) (h : l ≠ []) :
    (c :: l).getLast? = l.getLast? := by
  cases l with
  | nil => exact absurd rfl h
  | cons b l' => exact List.getLast?_cons_cons

theorem dropWhile_getLast? {α : Type} (p : α → Bool) (l : List α)
    (h : l.dropWhile p ≠ []) : (l.dropWhile p).getLast? = l.getLast? := by
  induction l with
  | nil => exact absurd rfl h
  | cons a l ih =>
      rw [List.dropWhile_cons] at h ⊢
      by_cases hp : p a = true
      · rw [if_pos hp] at h ⊢
        have hl : l ≠ [] := by
          intro he
          rw [he] at h
          exact h rfl
        rw [ih h, getLast?_cons_ne_nil a l hl]
      · rw [if_neg hp]

theorem head?_append_ne_nil {α : Type} (a b : List α) (h : a ≠ []) :
    (a ++ b).head? = a.head? := by
  cases a with
  | nil => exact absurd rfl h
  | cons x xs => simp

/-- A line that the packing loop may emit: nonempty, within the character
budget, with non-whitespace first and last characters. -/
def cleanLine (cpl : ℕ) (l : Str) : Prop :=
  l ≠ [] ∧ l.length ≤ cpl ∧
    (∀ c, l.head? = some c → isWs c = false) ∧
    (∀ c, l.getLast? = some c → isWs c = false)

theorem trim_eq_self_of_ends (l : Str)
    (h1 : ∀ c, l.head? = some c → isWs c = false)
    (h2 : ∀ c, l.getLast? = some c → isWs c = false) : trim l = l := by
  unfold trim trimRight trimLeft
  have hl : l.dropWhile isWs = l := by
    cases l with
    | nil => rfl
    | cons c rest =>
        exact List.dropWhile_cons_of_neg (by simp [h1 c rfl])
  rw [hl]
  have hr : l.reverse.dropWhile isWs = l.reverse := by
    cases hrev : l.reverse with
    | nil => rfl
    | cons c rest =>
        have hc : l.getLast? = some c := by
          rw [← List.head?_reverse, hrev]
          rfl
        exact List.dropWhile_cons_of_neg (by simp [h2 c hc])
  rw [hr, List.reverse_reverse]

theorem trim_head? (x : Str) (c : Char) (h : (trim x).head? = some c) :
    isWs c = false := by
  unfold trim trimRight trimLeft at h
  rw [List.head?_reverse] at h
  set w := (x.dropWhile isWs).reverse.dropWhile isWs with hw
  have hne : w ≠ [] := by
    intro he
    rw [he] at h
    exact Option.noConfusion h
  rw [hw, dropWhile_getLast? isWs _ (hw ▸ hne), List.getLast?_reverse] at h
  cases hh : (x.dropWhile isWs) with
  | nil => rw [hh] at h; exact Option.noConfusion h
  | cons a rest =>
      rw [hh] at h
      cases h
      exact dropWhile_head_false isWs x _ _ hh

theorem trim_getLast? (x : Str) (c : Char) (h : (trim x).getLast? = some c) :
    isWs c = false := by
  unfold trim trimRight trimLeft at h
  rw [List.getLast?_reverse] at h
  cases hh : (x.dropWhile isWs).reverse.dropWhile isWs with
  | nil => rw [hh] at h; exact Option.noConfusion h
  | cons a rest =>
      rw [hh] at h
      cases h
      exact dropWhile_head_false isWs _ _ _ hh

theorem trim_trim (x : Str) : trim (trim x) = trim x :=
  trim_eq_self_of_ends (trim x) (trim_head? x) (trim_getLast? x)

theorem trim_nil : trim ([] : Str) = [] := rfl

/-- A token produced by the word splitter: nonempty and free of
whitespace. -/
def wordLike (w : Str) : Prop := w ≠ [] ∧ ∀ c ∈ w, isWs c = false

theorem splitWs_ne_nil (d : Char) (rest : Str) (hd : isWs d = false) :
    splitWs (d :: rest) ≠ [] := by
  rw [splitWs, if_neg (by simp [hd])]
  by_cases hb : wordBreak rest = true
  · rw [if_pos hb]
    simp
  · rw [if_neg hb]
    simp

theorem splitWs_mem (s : Str) : ∀ w ∈ splitWs s, wordLike w := by
  induction s with
  | nil =>
      intro w hw
      exact absurd hw (by simp [splitWs])
  | cons c rest ih =>
      intro w hw
      rw [splitWs] at hw
      by_cases hc : isWs c = true
      · rw [if_pos (by simp [hc])] at hw
        exact ih w hw
      · rw [Bool.not_eq_true] at hc
        rw [if_neg (by simp [hc])] at hw
        by_cases hb : wordBreak rest = true
        · rw [if_pos hb] at hw
          rcases List.mem_cons.mp hw with hfst | htail
          · rw [hfst]
            exact ⟨by simp, by intro x hx; rcases List.mem_singleton.mp hx with rfl; exact hc⟩
          · exact ih w htail
        · rw [if_neg hb] at hw
          have hrest : ∃ d rest', rest = d :: rest' ∧ isWs d = false := by
            cases rest with
            | nil => exact absurd rfl hb
            | cons d rest' =>
                refine ⟨d, rest', rfl, ?_⟩
                unfold wordBreak at hb
                simpa using hb
          obtain ⟨d, rest', hrw, hd⟩ := hrest
          have hsne : splitWs rest ≠ [] := by
            rw [hrw]
            exact splitWs_ne_nil d rest' hd
          cases hsp : splitWs rest with
          | nil => exact absurd hsp hsne
          | cons g gs =>
              rw [hsp] at hw
              simp only [List.headD_cons, List.tail_cons] at hw
              rcases List.mem_cons.mp hw with hfst | htail
              · obtain ⟨hgne, hgchars⟩ := ih g (by rw [hsp]; simp)
                rw [hfst]
                refine ⟨by simp, ?_⟩
                intro x hx
                rcases List.mem_cons.mp hx with hx1 | hx2
                · rw [hx1]; exact hc
                · exact hgchars x hx2
              · exact ih w (by rw [hsp]; exact List.mem_cons_of_mem g htail)

theorem chunkWordGo_mem (size : ℕ) (hsize : 1 ≤ size) :
    ∀ (fuel : ℕ) (w : Str), (∀ c ∈ w, isWs c = false) →
      ∀ x ∈ chunkWordGo size fuel w,
        x ≠ [] ∧ x.length ≤ size ∧ ∀ c ∈ x, isWs c = false := by
  intro fuel
  induction fuel with
  | zero =>
      intro w hchars x hx
      cases w with
      | nil => exact absurd hx (by simp [chunkWordGo])
      | cons c w' => exact absurd hx (by simp [chunkWordGo])
  | succ fuel ih =>
      intro w hchars x hx
      cases w with
      | nil => exact absurd hx (by simp [chunkWordGo])
      | cons c w' =>
          rw [show chunkWordGo size (fuel + 1) (c :: w') =
            (c :: w').take size :: chunkWordGo size fuel ((c :: w').drop size)
            from rfl] at hx
          rcases List.mem_cons.mp hx with hx1 | hx2
          · refine ⟨?_, ?_, ?_⟩
            · rw [hx1]
              cases size with
              | zero => omega
              | succ n => simp
            · rw [hx1, List.length_take]
              omega
            · intro a ha
              rw [hx1] at ha
              exact hchars a (List.take_subset size (c :: w') ha)
          · exact ih ((c :: w').drop size)
              (fun a ha => hchars a (List.drop_subset size (c :: w') ha)) x hx2

theorem chunkWord_mem :
    ∀ (w : Str) (size : ℕ), (∀ c ∈ w, isWs c = false) →
      ∀ x ∈ chunkWord w size,
        x ≠ [] ∧ x.length ≤ size ∧ ∀ c ∈ x, isWs c = false := by
  intro w size hchars x hx
  unfold chunkWord at hx
  by_cases h : size = 0
  · rw [if_pos h] at hx
    exact absurd hx (by simp)
  · rw [if_neg h] at hx
    exact chunkWordGo_mem size (by omega) w.length w hchars x hx

theorem mem_of_head? {α : Type} (l : List α) (c : α) (h : l.head? = some c) :
    c ∈ l := by
  cases l with
  | nil => exact Option.noConfusion h
  | cons a rest =>
      have hac : a = c := by
        simp only [List.head?_cons] at h
        exact Option.some.inj h
      subst hac
      simp

theorem mem_of_getLast? {α : Type} (l : List α) (c : α)
    (h : l.getLast? = some c) : c ∈ l := by
  have h1 : l.reverse.head? = some c := by
    rw [List.head?_reverse]
    exact h
  exact List.mem_reverse.mp (mem_of_head? l.reverse c h1)

theorem wordLike_cleanLine (cpl : ℕ) (w : Str) (hne : w ≠ [])
    (hlen : w.length ≤ cpl) (hchars : ∀ c ∈ w, isWs c = false) :
    cleanLine cpl w := by
  refine ⟨hne, hlen, ?_, ?_⟩
  · intro c hc
    exact hchars c (mem_of_head? w c hc)
  · intro c hc
    exact hchars c (mem_of_getLast? w c hc)

/-- Invariant of the greedy packing state: all flushed lines are clean,
and the pending line is empty or clean. -/
def cleanSt (cpl : ℕ) (st : List Str × Str) : Prop :=
  (∀ l ∈ st.1, cleanLine cpl l) ∧ (st.2 = [] ∨ cleanLine cpl st.2)

theorem pushCurrent_mem (cpl : ℕ) (lines : List Str) (current : Str)
    (hl : ∀ l ∈ lines, cleanLine cpl l) (hc : current = [] ∨ cleanLine cpl current) :
    ∀ l ∈ pushCurrent lines current, cleanLine cpl l := by
  intro l hmem
  unfold pushCurrent at hmem
  by_cases h : current = []
  · rw [if_pos h] at hmem
    exact hl l hmem
  · rw [if_neg h] at hmem
    rcases List.mem_append.mp hmem with h1 | h2
    · exact hl l h1
    · rcases List.mem_singleton.mp h2 with rfl
      rcases hc with hc1 | hc2
      · exact absurd hc1 h
      · exact hc2

theorem packStep_clean (cpl : ℕ) (st : List Str × Str) (w : Str)
    (hst : cleanSt cpl st) (hw : wordLike w) :
    cleanSt cpl (packStep cpl st w) := by
  obtain ⟨hlines, hcur⟩ := hst
  obtain ⟨hwne, hwchars⟩ := hw
  unfold packStep
  by_cases hbig : cpl < w.length
  · rw [if_pos hbig]
    refine ⟨?_, Or.inl rfl⟩
    intro l hmem
    rcases List.mem_append.mp hmem with h1 | h2
    · exact pushCurrent_mem cpl st.1 st.2 hlines hcur l h1
    · obtain ⟨hne, hlen, hchars⟩ := chunkWord_mem w cpl hwchars l h2
      exact wordLike_cleanLine cpl l hne hlen hchars
  · rw [if_neg hbig]
    by_cases hempty : st.2 = []
    · have hceq : (if st.2 = [] then w else st.2 ++ (' ' :: w)) = w :=
        if_pos hempty
      rw [hceq]
      have hfit : w.length ≤ cpl := by omega
      rw [if_pos hfit]
      exact ⟨hlines, Or.inr (wordLike_cleanLine cpl w hwne hfit hwchars)⟩
    · have hceq : (if st.2 = [] then w else st.2 ++ (' ' :: w)) =
        st.2 ++ (' ' :: w) := if_neg hempty
      rw [hceq]
      rcases hcur with hc1 | hc2
      · exact absurd hc1 hempty
      obtain ⟨hcne, hclen, hchead, hclast⟩ := hc2
      by_cases hfit : (st.2 ++ (' ' :: w)).length ≤ cpl
      · rw [if_pos hfit]
        refine ⟨hlines, Or.inr ⟨by simp, hfit, ?_, ?_⟩⟩
        · intro c hc
          rw [head?_append_ne_nil st.2 (' ' :: w) hcne] at hc
          exact hchead c hc
        · intro c hc
          rw [List.getLast?_append_of_ne_nil st.2 (by simp)] at hc
          rw [getLast?_cons_ne_nil ' ' w hwne] at hc
          exact hwchars c (mem_of_getLast? w c hc)
      · rw [if_neg hfit]
        refine ⟨?_, Or.inr (wordLike_cleanLine cpl w hwne (by omega) hwchars)⟩
        exact pushCurrent_mem cpl st.1 st.2 hlines (Or.inr ⟨hcne, hclen, hchead, hclast⟩)

theorem foldl_packStep_clean (cpl : ℕ) (words : List Str)
    (hwords : ∀ w ∈ words, wordLike w) :
    ∀ st, cleanSt cpl st → cleanSt cpl (words.foldl (packStep cpl) st) := by
  induction words with
  | nil => intro st h; exact h
  | cons w rest ih =>
      intro st h
      rw [List.foldl_cons]
      exact ih (fun x hx => hwords x (List.mem_cons_of_mem w hx))
        (packStep cpl st w) (packStep_clean cpl st w h (hwords w (by simp)))

theorem greedyLines_clean (cpl : ℕ) (words : List Str)
    (hwords : ∀ w ∈ words, wordLike w) :
    ∀ l ∈ greedyLines cpl words, cleanLine cpl l := by
  unfold greedyLines
  have h := foldl_packStep_clean cpl words hwords ([], [])
    ⟨by simp, Or.inl rfl⟩
  exact pushCurrent_mem cpl _ _ h.1 h.2

theorem budget_pos (maxWidth fontSize : ℚ) : 1 ≤ budget maxWidth fontSize := by
  unfold budget
  have h : (1 : ℤ) ≤ max 1 ⌊maxWidth / (fontSize * (0.6 : ℚ))⌋ := le_max_left _ _
  omega

theorem head?_take {α : Type} (l : List α) (m : ℕ) (h : m ≠ 0) :
    (l.take m).head? = l.head? := by
  cases l <;> cases m <;> simp_all

theorem joinSep_space_ends (ls : List Str) (hne : ls ≠ [])
    (hall : ∀ l ∈ ls, l ≠ [] ∧
      (∀ c, l.head? = some c → isWs c = false) ∧
      (∀ c, l.getLast? = some c → isWs c = false)) :
    joinSep [' '] ls ≠ [] ∧
    (∀ c, (joinSep [' '] ls).head? = some c → isWs c = false) ∧
    (∀ c, (joinSep [' '] ls).getLast? = some c → isWs c = false) := by
  induction ls with
  | nil => exact absurd rfl hne
  | cons x rest ih =>
      obtain ⟨hxne, hxh, hxl⟩ := hall x (by simp)
      cases rest with
      | nil =>
          have hj : joinSep [' '] [x] = x := rfl
          rw [hj]
          exact ⟨hxne, hxh, hxl⟩
      | cons y rest' =>
          have hj : joinSep [' '] (x :: y :: rest') =
              x ++ [' '] ++ joinSep [' '] (y :: rest') := rfl
          obtain ⟨hjne, hjh, hjl⟩ := ih (by simp)
            (fun l hl => hall l (List.mem_cons_of_mem x hl))
          rw [hj]
          refine ⟨by simp [hxne], ?_, ?_⟩
          · intro c hc
            rw [List.append_assoc,
              head?_append_ne_nil x ([' '] ++ joinSep [' '] (y :: rest')) hxne] at hc
            exact hxh c hc
          · intro c hc
            rw [List.getLast?_append_of_ne_nil (x ++ [' ']) hjne] at hc
            exact hjl c hc

theorem collapse_clean (t : Str) (cpl : ℕ) (hcpl : 1 ≤ cpl) (htne : t ≠ [])
    (hh : ∀ c, t.head? = some c → isWs c = false)
    (hl : ∀ c, t.getLast? = some c → isWs c = false) :
    cleanLine cpl (collapseWithEllipsis t cpl) := by
  unfold collapseWithEllipsis
  by_cases h1 : t.length ≤ cpl
  · rw [if_pos h1]
    exact ⟨htne, h1, hh, hl⟩
  · rw [if_neg h1]
    by_cases h2 : cpl ≤ 3
    · rw [if_pos h2]
      refine ⟨?_, by simp, ?_, ?_⟩
      · intro he
        have := congrArg List.length he
        simp at this
        omega
      · intro c hc
        have hmem := mem_of_head? _ c hc
        have : c = '.' := List.eq_of_mem_replicate hmem
        rw [this]
        decide
      · intro c hc
        have hmem := mem_of_getLast? _ c hc
        have : c = '.' := List.eq_of_mem_replicate hmem
        rw [this]
        decide
    · rw [if_neg h2]
      have htake : (t.take (cpl - 3)).length = cpl - 3 := by
        rw [List.length_take]
        omega
      refine ⟨by simp, ?_, ?_, ?_⟩
      · rw [List.length_append, htake]
        have : (("...").data).length = 3 := rfl
        rw [this]
        omega
      · intro c hc
        rw [head?_append_ne_nil _ _ ?hne] at hc
        case hne =>
          intro he
          have := congrArg List.length he
          rw [htake] at this
          simp at this
          omega
        rw [head?_take t (cpl - 3) (by omega)] at hc
        exact hh c hc
      · intro c hc
        rw [List.getLast?_append_of_ne_nil _ (by decide)] at hc
        have : (("...").data).getLast? = some '.' := rfl
        rw [this] at hc
        cases hc
        decide

theorem set_last_take (l : List Str) (m : ℕ) (v : Str) (h1 : 1 ≤ m)
    (h2 : m ≤ l.length) :
    (l.take m).set (m - 1) v = l.take (m - 1) ++ [v] := by
  have hlen : (l.take m).length = m := by
    rw [List.length_take]
    omega
  have hlt : m - 1 < (l.take m).length := by omega
  rw [List.set_eq_take_cons_drop v hlt, List.take_take, min_eq_left (by omega)]
  have hdrop : (l.take m).drop (m - 1 + 1) = [] := by
    rw [List.drop_eq_nil_iff, hlen]
    omega
  rw [hdrop]

theorem wrapText_mem_clean (o : WrapOptions) (hw : o.wrap = true) :
    ∀ l ∈ wrapText o, cleanLine (budget o.maxWidth o.fontSize) l := by
  intro l hmem
  unfold wrapText at hmem
  by_cases h0 : trim o.text = []
  · rw [if_pos h0] at hmem
    exact absurd hmem (by simp)
  · rw [if_neg h0] at hmem
    rw [hw] at hmem
    simp only [Bool.true_eq_false, if_false] at hmem
    set cpl := budget o.maxWidth o.fontSize with hcpl
    by_cases h1 : (trim o.text).length ≤ cpl
    · rw [if_pos h1] at hmem
      rcases List.mem_singleton.mp hmem with rfl
      exact ⟨h0, h1, trim_head? o.text, trim_getLast? o.text⟩
    · rw [if_neg h1] at hmem
      have hlinesclean := greedyLines_clean cpl (splitWs (trim o.text))
        (fun w hw => splitWs_mem (trim o.text) w hw)
      set lines := greedyLines cpl (splitWs (trim o.text)) with hlines
      set m := o.maxLines.getD 2 with hm
      by_cases h2 : lines.length ≤ m
      · rw [if_pos h2] at hmem
        exact hlinesclean l hmem
      · rw [if_neg h2] at hmem
        by_cases hm1 : 1 ≤ m
        · rw [set_last_take lines m _ hm1 (by omega)] at hmem
          rcases List.mem_append.mp hmem with ha | hb
          · exact hlinesclean l (List.take_subset (m - 1) lines ha)
          · rcases List.mem_singleton.mp hb with rfl
            have hdropne : lines.drop (m - 1) ≠ [] := by
              rw [Ne, List.drop_eq_nil_iff]
              omega
            have hdropclean : ∀ x ∈ lines.drop (m - 1), x ≠ [] ∧
                (∀ c, x.head? = some c → isWs c = false) ∧
                (∀ c, x.getLast? = some c → isWs c = false) := by
              intro x hx
              obtain ⟨a, _, b, c⟩ :=
                hlinesclean x (List.drop_subset (m - 1) lines hx)
              exact ⟨a, b, c⟩
            obtain ⟨hjne, hjh, hjl⟩ :=
              joinSep_space_ends (lines.drop (m - 1)) hdropne hdropclean
            have hjtrim : trim (joinSep [' '] (lines.drop (m - 1))) =
                joinSep [' '] (lines.drop (m - 1)) :=
              trim_eq_self_of_ends _ hjh hjl
            rw [hjtrim]
            exact collapse_clean _ cpl (budget_pos o.maxWidth o.fontSize)
              hjne hjh hjl
        · have hm0 : m = 0 := by omega
          rw [hm0] at hmem
          simp only [Nat.zero_sub, List.take_zero, List.set_nil] at hmem
          exact absurd hmem (by simp)

/-- Claim C8: text wrapping is line-wise idempotent — every line produced
by `wrapText` is mapped to exactly itself when wrapped again with the
same width, font size, wrap flag and line limit; and with wrapping
enabled every produced line fits the per-line character budget. -/
theorem claim8_idempotent (o : WrapOptions) (l : Str) (hmem : l ∈ wrapText o) :
    wrapText ⟨l, o.maxWidth, o.fontSize, o.wrap, o.maxLines⟩ = [l] ∧
    (o.wrap = true → l.length ≤ budget o.maxWidth o.fontSize) := by
  by_cases hw : o.wrap = true
  · obtain ⟨hne, hlen, hh, hl⟩ := wrapText_mem_clean o hw l hmem
    refine ⟨?_, fun _ => hlen⟩
    unfold wrapText
    dsimp only
    rw [trim_eq_self_of_ends l hh hl, if_neg hne, hw]
    simp only [Bool.true_eq_false, if_false]
    rw [if_pos hlen]
  · have hwf : o.wrap = false := by
      cases hb : o.wrap
      · rfl
      · exact absurd hb hw
    unfold wrapText at hmem
    by_cases h0 : trim o.text = []
    · rw [if_pos h0] at hmem
      exact absurd hmem (by simp)
    · rw [if_neg h0, hwf] at hmem
      simp only [if_pos rfl] at hmem
      rcases List.mem_singleton.mp hmem with rfl
      refine ⟨?_, fun hcontr => absurd hcontr hw⟩
      unfold wrapText
      dsimp only
      rw [trim_trim, if_neg h0, hwf]
      simp

theorem budget_30_10 : budget 30 10 = 5 := by
  unfold budget
  norm_num
  rfl

theorem wrapText_sample :
    wrapText ⟨("aaaa bbbb cccc dddd").data, 30, 10, true, none⟩ =
      [("aaaa").data, ("bb...").data] := by
  unfold wrapText
  dsimp only
  rw [budget_30_10]
  decide

/-- Claim C8 witness: applying the theorem to the first output line of a
wrapped caption maps it to itself. -/
theorem claim8_witness :
    wrapText ⟨("aaaa").data, 30, 10, true, none⟩ = [("aaaa").data] ∧
      (("aaaa").data).length ≤ budget 30 10 := by
  have h := claim8_idempotent ⟨("aaaa bbbb cccc dddd").data, 30, 10, true, none⟩
    ("aaaa").data (by rw [wrapText_sample]; decide)
  exact ⟨h.1, h.2 rfl⟩

/-- Claim C4 (amended): for every call with `maxLines ≥ 1`, `wrapText`
returns between 0 and `maxLines` lines; when greedy packing exceeds
`maxLines`, the first `maxLines - 1` packed lines are kept verbatim and
the lines from index `maxLines - 1` onward are joined with single spaces
and collapsed to the per-line character budget (truncation plus a
3-character ellipsis, or `maxChars` dots when the budget is at most 3,
applied only when the merged remainder exceeds the budget), forming the
final line. -/
theorem claim4_amended (o : WrapOptions) (h : 1 ≤ o.maxLines.getD 2) :
    (wrapText o).length ≤ o.maxLines.getD 2 ∧
    (∀ g, g = greedyLines (budget o.maxWidth o.fontSize) (splitWs (trim o.text)) →
      o.wrap = true → trim o.text ≠ [] →
      budget o.maxWidth o.fontSize < (trim o.text).length →
      o.maxLines.getD 2 < g.length →
      wrapText o = g.take (o.maxLines.getD 2 - 1) ++
        [collapseWithEllipsis
          (trim (joinSep [' '] (g.drop (o.maxLines.getD 2 - 1))))
          (budget o.maxWidth o.fontSize)]) ∧
    (∀ t m, collapseWithEllipsis t m =
      if t.length ≤ m then t
      else if m ≤ 3 then List.replicate m '.'
      else t.take (m - 3) ++ ("...").data) := by
  refine ⟨?_, ?_, fun t m => rfl⟩
  · unfold wrapText
    by_cases h0 : trim o.text = []
    · rw [if_pos h0]
      simp
    · rw [if_neg h0]
      by_cases hwf : o.wrap = false
      · rw [if_pos hwf]
        simpa using h
      · rw [if_neg hwf]
        by_cases h1 : (trim o.text).length ≤ budget o.maxWidth o.fontSize
        · rw [if_pos h1]
          simpa using h
        · rw [if_neg h1]
          set lines := greedyLines (budget o.maxWidth o.fontSize)
            (splitWs (trim o.text)) with hlines
          set m := o.maxLines.getD 2 with hm
          by_cases h2 : lines.length ≤ m
          · rw [if_pos h2]
            exact h2
          · rw [if_neg h2]
            rw [List.length_set, List.length_take]
            omega
  · intro g hg hwt hne hbig hover
    unfold wrapText
    rw [if_neg hne, hwt]
    simp only [Bool.true_eq_false, if_false]
    rw [if_neg (by omega), ← hg, if_neg (by omega)]
    exact set_last_take g (o.maxLines.getD 2) _ h (by omega)

/-- Claim C4 witness: the amended theorem applied to a four-word caption
that overflows a two-line limit with budget 5. -/
theorem claim4_witness :
    wrapText ⟨("aaaa bbbb cccc dddd").data, 30, 10, true, none⟩ =
      [("aaaa").data, ("bb...").data] := by
  have h := (claim4_amended ⟨("aaaa bbbb cccc dddd").data, 30, 10, true, none⟩
    (by decide)).2.1 _ rfl rfl (by decide)
    (by dsimp only; rw [budget_30_10]; decide)
    (by dsimp only; rw [budget_30_10]; decide)
  rw [h]
  dsimp only
  rw [budget_30_10]
  decide

/-- Claim C4 counterexample: with `maxLines = 0` and wrapping disabled,
`wrapText` still returns one line, exceeding the claimed `maxLines`
bound. -/
theorem claim4_counterexample :
    wrapText ⟨("hi").data, 100, 12, false, some 0⟩ = [("hi").data] ∧
      ¬ (wrapText ⟨("hi").data, 100, 12, false, some 0⟩).length ≤
        (some 0 : Option ℕ).getD 2 := by
  constructor
  · decide
  · intro hcontr
    rw [(by decide :
      wrapText ⟨("hi").data, 100, 12, false, some 0⟩ = [("hi").data])] at hcontr
    simp at hcontr

/-! ## Scale option (`parseScale` from `src/index.ts`) -/

/-- `parseInt(raw, 10)`: skip leading whitespace, optional sign, then the
longest run of decimal digits; `NaN` (modelled `none`) when no digit
follows.  Modelled over unbounded integers (ideal JavaScript numbers). -/
def jsParseInt (s : Str) : Option ℤ :=
  match s.dropWhile isWs with
  | '+' :: r =>
      if r.takeWhile isDigit = [] then none
      else some (digitsToNat (r.takeWhile isDigit) : ℤ)
  | '-' :: r =>
      if r.takeWhile isDigit = [] then none
      else some (-(digitsToNat (r.takeWhile isDigit) : ℤ))
  | r =>
      if r.takeWhile isDigit = [] then none
      else some (digitsToNat (r.takeWhile isDigit) : ℤ)

/-- `parseScale` from `src/index.ts`: missing or empty input gives 1;
otherwise `parseInt(raw, 10)`, and the scale is 2 exactly when that
parse yields 2, else 1. -/
def parseScale : Option Str → ℕ
  | none => 1
  | some s =>
      if s = [] then 1
      else
        match jsParseInt s with
        | none => 1
        | some n => if n = 2 then 2 else 1

/-- Claim C7 (amended): `parseScale` resolves to 2 exactly when
`parseInt(raw, 10)` of the (nonempty) query value yields 2 — which also
covers values such as `"02"`, `" 2"` and `"2.9"` — and to 1 for every
other input (absent, empty, non-numeric, or any other magnitude); the
result is always 1 or 2. -/
theorem claim7_amended :
    (∀ s : Str, parseScale (some s) = 2 ↔ s ≠ [] ∧ jsParseInt s = some 2) ∧
    (∀ raw, parseScale raw = 1 ∨ parseScale raw = 2) ∧
    parseScale none = 1 ∧
    parseScale (some ("abc").data) = 1 ∧
    parseScale (some ("3").data) = 1 ∧
    parseScale (some ("2").data) = 2 := by
  refine ⟨?_, ?_, by decide, by decide, by decide, by decide⟩
  · intro s
    simp only [parseScale]
    by_cases h0 : s = []
    · rw [if_pos h0]
      constructor
      · intro hcontr
        exact absurd hcontr (by decide)
      · rintro ⟨hne, _⟩
        exact absurd h0 hne
    · rw [if_neg h0]
      cases h1 : jsParseInt s with
      | none =>
          constructor
          · intro hcontr
            exact absurd hcontr (by decide)
          · rintro ⟨_, he⟩
            exact Option.noConfusion he
      | some n =>
          show (if n = 2 then 2 else 1) = 2 ↔ s ≠ [] ∧ some n = some 2
          by_cases h2 : n = 2
          · rw [if_pos h2]
            subst h2
            exact ⟨fun _ => ⟨h0, rfl⟩, fun _ => rfl⟩
          · rw [if_neg h2]
            constructor
            · intro hcontr
              exact absurd hcontr (by decide)
            · rintro ⟨_, he⟩
              exact absurd (Option.some.inj he) h2
  · intro raw
    cases raw with
    | none => exact Or.inl rfl
    | some s =>
        simp only [parseScale]
        by_cases h0 : s = []
        · rw [if_pos h0]
          exact Or.inl rfl
        · rw [if_neg h0]
          cases jsParseInt s with
          | none => exact Or.inl rfl
          | some n =>
              show (if n = 2 then 2 else 1) = 1 ∨ (if n = 2 then 2 else 1) = 2
              by_cases h2 : n = 2
              · rw [if_pos h2]
                exact Or.inr rfl
              · rw [if_neg h2]
                exact Or.inl rfl

/-- Claim C7 counterexample: the query value `"2.9"` is not the literal
`"2"`, yet resolves to scale 2 (`parseInt` stops at the decimal point),
contradicting the claim that every other input resolves to scale 1. -/
theorem claim7_counterexample :
    parseScale (some (("2.9").data)) = 2 ∧ ("2.9").data ≠ ("2").data := by
  decide

/-- Claim C7 witness: the amended iff applied at the query value `"2"`. -/
theorem claim7_witness :
    parseScale (some (("2").data)) = 2 :=
  (claim7_amended.1 (("2").data)).mpr ⟨by decide, by decide⟩

/-! ## Luminance and auto-contrast (`src/util.ts`)

JavaScript floating-point arithmetic is modelled as exact arithmetic:
channel extraction works over `ℚ`, the sRGB linearization over `ℝ`. -/

/-- Digit value used by `parseInt(-, 16)` (either case accepted). -/
def hexDigitVal (c : Char) : ℕ :=
  if 48 ≤ c.toNat ∧ c.toNat ≤ 57 then c.toNat - 48
  else if 97 ≤ c.toNat ∧ c.toNat ≤ 102 then c.toNat - 87
  else if 65 ≤ c.toNat ∧ c.toNat ≤ 70 then c.toNat - 55
  else 0

/-- `normalizeHex` from `src/util.ts`: case-insensitive `#`+3/6 hex
digits, shorthand expanded, result lower-cased; the thrown
`Invalid hex color` is modelled as `none`. -/
def normalizeHexO (value : Str) : Option Str :=
  match value with
  | c :: h =>
      if c = '#' ∧ (h.length = 3 ∨ h.length = 6) ∧ h.all isHexDigitCI then
        some (if h.length = 3 then '#' :: toLowerStr (expandHex3 h)
              else toLowerStr ('#' :: h))
      else none
  | [] => none

/-- `hexToRgb` from `src/util.ts`: normalize, then read the three
two-digit base-16 channel values. -/
def hexToRgb (hex : Str) : Option (ℕ × ℕ × ℕ) :=
  match normalizeHexO hex with
  | none => none
  | some nh =>
      let v := nh.drop 1
      some (16 * hexDigitVal (v.getD 0 '0') + hexDigitVal (v.getD 1 '0'),
            16 * hexDigitVal (v.getD 2 '0') + hexDigitVal (v.getD 3 '0'),
            16 * hexDigitVal (v.getD 4 '0') + hexDigitVal (v.getD 5 '0'))

/-- `clamp` on rationals. -/
def clampQ (v lo hi : ℚ) : ℚ := min (max v lo) hi

/-- `clamp` on integers (used after rounding). -/
def clampZ (v lo hi : ℤ) : ℤ := min (max v lo) hi

/-- Truncation toward zero, the rounding JavaScript's `%` applies. -/
def qTrunc (q : ℚ) : ℤ := if 0 ≤ q then ⌊q⌋ else -⌊-q⌋

/-- JavaScript's remainder operator `%` on numbers. -/
def jsMod (a b : ℚ) : ℚ := a - b * qTrunc (a / b)

/-- `Math.round`: round half toward positive infinity. -/
def jsRound (q : ℚ) : ℤ := ⌊q + 1 / 2⌋

/-- The exponent part accepted by `parseFloat` (ignored when no digit
follows the `e`). -/
def floatExp (re : Str) : ℤ :=
  match re with
  | '+' :: rd =>
      if rd.takeWhile isDigit = [] then 0
      else (digitsToNat (rd.takeWhile isDigit) : ℤ)
  | '-' :: rd =>
      if rd.takeWhile isDigit = [] then 0
      else -(digitsToNat (rd.takeWhile isDigit) : ℤ)
  | rd =>
      if rd.takeWhile isDigit = [] then 0
      else (digitsToNat (rd.takeWhile isDigit) : ℤ)

/-- `parseFloat`: leading whitespace, optional sign, decimal mantissa,
optional exponent; `NaN` is modelled as `none`.  (The `Infinity`
literals are not modelled; exact rational arithmetic stands in for
binary floating point throughout.) -/
def jsParseFloat (s : Str) : Option ℚ :=
  let t := s.dropWhile isWs
  let signed : ℚ × Str :=
    match t with
    | '+' :: r => (1, r)
    | '-' :: r => (-1, r)
    | r => (1, r)
  let intDigits := signed.2.takeWhile isDigit
  let r2 := signed.2.drop intDigits.length
  let fracAndRest : Str × Str :=
    match r2 with
    | '.' :: rf => (rf.takeWhile isDigit, rf.drop (rf.takeWhile isDigit).length)
    | _ => ([], r2)
  if intDigits = [] ∧ fracAndRest.1 = [] then none
  else
    let mantissa : ℚ := (digitsToNat intDigits : ℚ) +
      (digitsToNat fracAndRest.1 : ℚ) / (10 : ℚ) ^ fracAndRest.1.length
    let e : ℤ :=
      match fracAndRest.2 with
      | 'e' :: re => floatExp re
      | 'E' :: re => floatExp re
      | _ => 0
    some (signed.1 * mantissa * (10 : ℚ) ^ e)

/-- `parsePercentage` from `src/util.ts`: requires a trailing `%`, parses
the number and clamps the ratio into `[0, 1]`; `NaN` is `none`. -/
def parsePercentage (value : Str) : Option ℚ :=
  if value.getLast? = some '%' then
    match jsParseFloat value.dropLast with
    | none => none
    | some v => some (clampQ (v / 100) 0 1)
  else none

/-- `parseRgbPart` from `src/util.ts`: percentage channels are scaled to
0–255 and rounded, numeric channels parsed with `parseInt`; both clamped
into `[0, 255]`. -/
def parseRgbPart (value : Str) : Option ℕ :=
  if value.getLast? = some '%' then
    match jsParseFloat value.dropLast with
    | none => none
    | some percent =>
        some ((clampZ (jsRound (percent / 100 * 255)) 0 255).toNat)
  else
    match jsParseInt value with
    | none => none
    | some n => some ((clampZ n 0 255).toNat)

/-- `hueToRgb` from `src/util.ts`. -/
def hueToRgb (p q t : ℚ) : ℚ :=
  let t1 := if t < 0 then t + 1 else t
  let t2 := if t1 > 1 then t1 - 1 else t1
  if t2 < 1 / 6 then p + (q - p) * 6 * t2
  else if t2 < 1 / 2 then q
  else if t2 < 2 / 3 then p + (q - p) * (2 / 3 - t2) * 6
  else p

/-- `hslToRgb` from `src/util.ts` (hue in degrees, saturation and
lightness already in `[0, 1]`). -/
def hslToRgb (hDeg s l : ℚ) : ℕ × ℕ × ℕ :=
  let h := jsMod (jsMod hDeg 360 + 360) 360 / 360
  if s = 0 then
    let gray := (jsRound (l * 255)).toNat
    (gray, gray, gray)
  else
    let q := if l < 1 / 2 then l * (1 + s) else l + s - l * s
    let p := 2 * l - q
    ((jsRound (hueToRgb p q (h + 1 / 3) * 255)).toNat,
     (jsRound (hueToRgb p q h * 255)).toNat,
     (jsRound (hueToRgb p q (h - 1 / 3) * 255)).toNat)

/-- `colorToRgb` from `src/util.ts`: trim and lower-case, then transparent
→ no RGB, hex → direct conversion, `rgb()`/`rgba()` → three parsed
channels, `hsl()`/`hsla()` → HSL conversion, named colors (checked last)
→ their hex mapping; anything else has no RGB value. -/
def colorToRgb (color : Str) : Option (ℕ × ℕ × ℕ) :=
  let t := toLowerStr (trim color)
  if t = ("transparent").data then none
  else if hexForm t then hexToRgb t
  else
    match rgbCapture t with
    | some cap =>
        let parts := (splitComma cap).map trim
        if parts.length < 3 then none
        else
          match parseRgbPart (parts.getD 0 []), parseRgbPart (parts.getD 1 []),
              parseRgbPart (parts.getD 2 []) with
          | some r, some g, some b => some (r, g, b)
          | _, _, _ => none
    | none =>
      match hslCapture t with
      | some cap =>
          let parts := (splitComma cap).map trim
          if parts.length < 3 then none
          else
            match jsParseFloat (parts.getD 0 []), parsePercentage (parts.getD 1 []),
                parsePercentage (parts.getD 2 []) with
            | some h, some s, some l => some (hslToRgb h s l)
            | _, _, _ => none
      | none =>
        match lookupColor t cssColors with
        | some hex => hexToRgb hex
        | none => none

open Classical in
/-- The per-channel sRGB linearization of `rgbToLuminance`. -/
noncomputable def linearizeChannel (ch : ℕ) : ℝ :=
  if ((ch : ℝ) / 255) ≤ 0.03928 then ((ch : ℝ) / 255) / 12.92
  else (((ch : ℝ) / 255 + 0.055) / 1.055) ^ (2.4 : ℝ)

/-- `rgbToLuminance` from `src/util.ts`: BT.709 weighting of the
linearized channels. -/
noncomputable def rgbToLuminance (rgb : ℕ × ℕ × ℕ) : ℝ :=
  0.2126 * linearizeChannel rgb.1 + 0.7152 * linearizeChannel rgb.2.1 +
    0.0722 * linearizeChannel rgb.2.2

open Classical in
/-- `autoContrast` from `src/util.ts`. -/
noncomputable def autoContrast (bg : Str) : Str :=
  if bg = ("transparent").data then ("#111111").data
  else
    match colorToRgb bg with
    | none => ("#111111").data
    | some rgb =>
        if rgbToLuminance rgb > 0.55 then ("#111111").data
        else ("#ffffff").data

theorem linearizeChannel_255 : linearizeChannel 255 = 1 := by
  unfold linearizeChannel
  rw [if_neg (by norm_num)]
  have h1 : ((255 : ℕ) : ℝ) / 255 = 1 := by norm_num
  rw [h1]
  have h2 : ((1 : ℝ) + 0.055) / 1.055 = 1 := by norm_num
  rw [h2, Real.one_rpow]

theorem linearizeChannel_0 : linearizeChannel 0 = 0 := by
  unfold linearizeChannel
  rw [if_pos (by norm_num)]
  norm_num

theorem rgbToLuminance_red : rgbToLuminance (255, 0, 0) = 0.2126 := by
  unfold rgbToLuminance
  rw [show ((255, 0, 0) : ℕ × ℕ × ℕ).1 = 255 from rfl,
    show ((255, 0, 0) : ℕ × ℕ × ℕ).2.1 = 0 from rfl,
    show ((255, 0, 0) : ℕ × ℕ × ℕ).2.2 = 0 from rfl,
    linearizeChannel_255, linearizeChannel_0]
  norm_num

/-- Claim C3: `autoContrast` returns the fixed dark foreground `#111111`
for a transparent or unparseable background, and otherwise compares the
background's relative luminance (per-channel sRGB linearization combined
with BT.709 weights, as computed by `rgbToLuminance`) against the 0.55
threshold — dark foreground above it, light foreground `#ffffff`
otherwise; in particular red maps to white and transparent to the dark
default. -/
theorem claim3_autoContrast :
    autoContrast ("transparent").data = ("#111111").data ∧
    autoContrast ("#ff0000").data = ("#ffffff").data ∧
    (∀ bg, colorToRgb bg = none → autoContrast bg = ("#111111").data) ∧
    (∀ bg rgb, bg ≠ ("transparent").data → colorToRgb bg = some rgb →
      autoContrast bg =
        (if rgbToLuminance rgb > 0.55 then ("#111111").data
         else ("#ffffff").data)) := by
  have htrans : autoContrast ("transparent").data = ("#111111").data := by
    unfold autoContrast
    rw [if_pos rfl]
  have hnone : ∀ bg, colorToRgb bg = none → autoContrast bg = ("#111111").data := by
    intro bg h
    unfold autoContrast
    by_cases ht : bg = ("transparent").data
    · rw [if_pos ht]
    · rw [if_neg ht, h]
  have hsome : ∀ bg rgb, bg ≠ ("transparent").data → colorToRgb bg = some rgb →
      autoContrast bg =
        (if rgbToLuminance rgb > 0.55 then ("#111111").data
         else ("#ffffff").data) := by
    intro bg rgb ht h
    unfold autoContrast
    rw [if_neg ht, h]
  have hred : autoContrast ("#ff0000").data = ("#ffffff").data := by
    have hc : colorToRgb ("#ff0000").data = some (255, 0, 0) := by decide
    rw [hsome ("#ff0000").data (255, 0, 0) (by decide) hc]
    rw [if_neg (by rw [rgbToLuminance_red]; norm_num)]
  exact ⟨htrans, hred, hnone, hsome⟩

/-- Claim C3 witness: the luminance-threshold conjunct applied to the
black background, whose RGB triple is extracted concretely. -/
theorem claim3_witness :
    autoContrast ("#000000").data =
      (if rgbToLuminance (0, 0, 0) > 0.55 then ("#111111").data
       else ("#ffffff").data) :=
  claim3_autoContrast.2.2.2 ("#000000").data (0, 0, 0) (by decide) (by decide)

/-! ## Markup assembly (`src/svg.ts`)

Number formatting (`${q}` on a JavaScript float) is abstracted as a
parameter `fmt : ℚ → Str`; integer interpolations use exact decimal
notation.  The source's `.filter(Boolean).join('')` drops empty strings
before concatenating, which equals plain concatenation. -/

/-- Concatenation of a list of strings (`join('')`). -/
def strConcat (ls : List Str) : Str := ls.foldr (· ++ ·) []

/-- Decimal rendering of a natural number interpolation. -/
def natStr (n : ℕ) : Str := (Nat.repr n).data

/-- One global single-character replacement, as
`String.prototype.replace(/c/g, repl)`. -/
def replaceChar (target : Char) (repl : Str) (s : Str) : Str :=
  s.foldr (fun c acc => (if c = target then repl else [c]) ++ acc) []

/-- `escapeXML` from `src/util.ts`: the five reserved characters replaced
by their entities, in the source's order (`&` first). -/
def escapeXML (s : Str) : Str :=
  replaceChar squote (("&#39;").data)
    (replaceChar '"' (("&quot;").data)
      (replaceChar '>' (("&gt;").data)
        (replaceChar '<' (("&lt;").data)
          (replaceChar '&' (("&amp;").data) s))))

/-- Per-character escaping; `escapeXML` is its pointwise extension. -/
def escChar (c : Char) : Str :=
  if c = '&' then ("&amp;").data
  else if c = '<' then ("&lt;").data
  else if c = '>' then ("&gt;").data
  else if c = '"' then ("&quot;").data
  else if c = squote then ("&#39;").data
  else [c]

/-- The five character entities `escapeXML` can emit. -/
def xmlEntities : List Str :=
  [("&amp;").data, ("&lt;").data, ("&gt;").data, ("&quot;").data,
   ("&#39;").data]

/-- The five reserved markup characters. -/
def xmlReserved : List Char := ['&', '<', '>', '"', squote]

theorem foldr_flat_acc (g : Char → Str) (x : Str) (z : Str) :
    x.foldr (fun c acc => g c ++ acc) z =
      x.foldr (fun c acc => g c ++ acc) [] ++ z := by
  induction x with
  | nil => rfl
  | cons c x ih =>
      simp only [List.foldr_cons, ih, List.append_assoc]

theorem replaceChar_append (t : Char) (r : Str) (x y : Str) :
    replaceChar t r (x ++ y) = replaceChar t r x ++ replaceChar t r y := by
  unfold replaceChar
  rw [List.foldr_append, foldr_flat_acc]

theorem escapeXML_cons (c : Char) (s : Str) :
    escapeXML (c :: s) = escChar c ++ escapeXML s := by
  unfold escapeXML
  rw [show replaceChar '&' (("&amp;").data) (c :: s) =
    (if c = '&' then ("&amp;").data else [c]) ++
      replaceChar '&' (("&amp;").data) s from rfl]
  rw [replaceChar_append, replaceChar_append, replaceChar_append,
    replaceChar_append]
  congr 1
  by_cases ha : c = '&'
  · subst ha; decide
  rw [if_neg ha]
  by_cases hb : c = '<'
  · subst hb; decide
  rw [show replaceChar '<' (("&lt;").data) [c] = [c] by
    simp [replaceChar, hb]]
  by_cases hc : c = '>'
  · subst hc; decide
  rw [show replaceChar '>' (("&gt;").data) [c] = [c] by
    simp [replaceChar, hc]]
  by_cases hd : c = '"'
  · subst hd; decide
  rw [show replaceChar '"' (("&quot;").data) [c] = [c] by
    simp [replaceChar, hd]]
  by_cases he : c = squote
  · subst he; decide
  rw [show replaceChar squote (("&#39;").data) [c] = [c] by
    simp [replaceChar, he]]
  unfold escChar
  rw [if_neg ha, if_neg hb, if_neg hc, if_neg hd, if_neg he]

theorem escapeXML_eq_blocks (s : Str) :
    escapeXML s = strConcat (s.map escChar) := by
  induction s with
  | nil => rfl
  | cons c s ih =>
      rw [escapeXML_cons, ih]
      rfl

theorem escChar_safe (c : Char) :
    escChar c ∈ xmlEntities ∨ ∃ d, escChar c = [d] ∧ d ∉ xmlReserved := by
  unfold escChar
  by_cases ha : c = '&'
  · rw [if_pos ha]; left; decide
  rw [if_neg ha]
  by_cases hb : c = '<'
  · rw [if_pos hb]; left; decide
  rw [if_neg hb]
  by_cases hc : c = '>'
  · rw [if_pos hc]; left; decide
  rw [if_neg hc]
  by_cases hd : c = '"'
  · rw [if_pos hd]; left; decide
  rw [if_neg hd]
  by_cases he : c = squote
  · rw [if_pos he]; left; decide
  rw [if_neg he]
  right
  refine ⟨c, rfl, ?_⟩
  intro hmem
  simp only [xmlReserved, List.mem_cons, List.not_mem_nil, or_false] at hmem
  rcases hmem with h | h | h | h | h
  · exact ha h
  · exact hb h
  · exact hc h
  · exact hd h
  · exact he h

theorem escChar_mem_safe (c : Char) (x : Char) (hx : x ∈ escChar c) :
    x ≠ '<' ∧ x ≠ '>' ∧ x ≠ '"' ∧ x ≠ squote := by
  unfold escChar at hx
  by_cases ha : c = '&'
  · rw [if_pos ha] at hx
    exact (by decide : ∀ y ∈ ("&amp;").data,
      y ≠ '<' ∧ y ≠ '>' ∧ y ≠ '"' ∧ y ≠ squote) x hx
  rw [if_neg ha] at hx
  by_cases hb : c = '<'
  · rw [if_pos hb] at hx
    exact (by decide : ∀ y ∈ ("&lt;").data,
      y ≠ '<' ∧ y ≠ '>' ∧ y ≠ '"' ∧ y ≠ squote) x hx
  rw [if_neg hb] at hx
  by_cases hc : c = '>'
  · rw [if_pos hc] at hx
    exact (by decide : ∀ y ∈ ("&gt;").data,
      y ≠ '<' ∧ y ≠ '>' ∧ y ≠ '"' ∧ y ≠ squote) x hx
  rw [if_neg hc] at hx
  by_cases hd : c = '"'
  · rw [if_pos hd] at hx
    exact (by decide : ∀ y ∈ ("&quot;").data,
      y ≠ '<' ∧ y ≠ '>' ∧ y ≠ '"' ∧ y ≠ squote) x hx
  rw [if_neg hd] at hx
  by_cases he : c = squote
  · rw [if_pos he] at hx
    exact (by decide : ∀ y ∈ ("&#39;").data,
      y ≠ '<' ∧ y ≠ '>' ∧ y ≠ '"' ∧ y ≠ squote) x hx
  rw [if_neg he] at hx
  rcases List.mem_singleton.mp hx with rfl
  exact ⟨hb, hc, hd, he⟩

theorem escapeXML_no_raw (s : Str) :
    ∀ c ∈ escapeXML s, c ≠ '<' ∧ c ≠ '>' ∧ c ≠ '"' ∧ c ≠ squote := by
  induction s with
  | nil =>
      intro c hc
      rw [show escapeXML ([] : Str) = [] from rfl] at hc
      exact absurd hc (List.not_mem_nil c)
  | cons a s ih =>
      intro c hc
      rw [escapeXML_cons] at hc
      rcases List.mem_append.mp hc with h | h
      · exact escChar_mem_safe a c h
      · exact ih c h

/-- The alignment enumeration from `src/util.ts`. -/
inductive Align where
  | left
  | center
  | right
deriving DecidableEq

/-- `alignToAnchor` from `src/svg.ts`. -/
def alignToAnchor : Align → Str
  | .left => ("start").data
  | .right => ("end").data
  | .center => ("middle").data

/-- The default font stack of `src/svg.ts`. -/
def defaultFont : Str :=
  ("system-ui, -apple-system, BlinkMacSystemFont, \"Segoe UI\", sans-serif").data

/-- The options record of `buildText`. -/
structure TextOptions where
  x : ℚ
  yStart : ℚ
  lineHeight : ℚ
  fill : Str
  anchor : Str
  fontFamily : Str
  fontSize : ℚ
  fontWeight : Option Str

/-- `buildText` from `src/svg.ts`: one `<text>` container with one
positioned `<tspan>` per line, the block vertically centered; each line,
the font family and the font weight pass through `escapeXML`. -/
def buildText (fmt : ℚ → Str) (lines : List Str) (o : TextOptions) : Str :=
  let baseY := o.yStart - o.lineHeight * ((lines.length : ℚ) - 1) * (0.5 : ℚ)
  let tspans := strConcat ((lines.enum).map (fun p =>
    ("<tspan x=\"").data ++ fmt o.x ++ ("\" y=\"").data ++
      fmt (baseY + (p.1 : ℚ) * o.lineHeight) ++ ("\">").data ++
      escapeXML p.2 ++ ("</tspan>").data))
  let weightAttr :=
    match o.fontWeight with
    | none => []
    | some w => (" font-weight=\"").data ++ escapeXML w ++ ("\"").data
  ("<text x=\"").data ++ fmt o.x ++ ("\" fill=\"").data ++ o.fill ++
    ("\" text-anchor=\"").data ++ o.anchor ++ ("\" font-family=\"").data ++
    escapeXML o.fontFamily ++ ("\" font-size=\"").data ++ fmt o.fontSize ++
    ("\" dominant-baseline=\"middle\"").data ++ weightAttr ++ (">").data ++
    tspans ++ ("</text>").data

/-- `roundCornerAttr` from `src/svg.ts` (`!radius` is falsy exactly at
zero in our exact model). -/
def roundCornerAttr (fmt : ℚ → Str) (radius : ℚ) : Str :=
  if radius = 0 then []
  else (" rx=\"").data ++ fmt radius ++ ("\" ry=\"").data ++ fmt radius ++
    ("\"").data

/-- `strokeAttributes` from `src/svg.ts`: emitted only when a nonempty
stroke color and a nonzero stroke width are both present. -/
def strokeAttrs (fmt : ℚ → Str) (stroke : Option Str) (strokeWidth : ℚ) : Str :=
  match stroke with
  | none => []
  | some sc =>
      if sc = [] ∨ strokeWidth = 0 then []
      else (" stroke=\"").data ++ sc ++ ("\" stroke-width=\"").data ++
        fmt strokeWidth ++ ("\"").data

/-- `shadowAttr` from `src/svg.ts`. -/
def shadowAttr (shadow : Bool) : Str :=
  if shadow then (" filter=\"url(#dropShadow)\"").data else []

/-- `buildShadowFilter` from `src/svg.ts`. -/
def buildShadowFilter : Str :=
  ("<defs><filter id=\"dropShadow\" x=\"-20%\" y=\"-20%\" width=\"140%\" height=\"140%\"><feDropShadow dx=\"0\" dy=\"2\" stdDeviation=\"3\" flood-opacity=\"0.25\"/></filter></defs>").data

/-- `buildRect` from `src/svg.ts` (the transparent and colored branches
differ only in the fill value). -/
def buildRect (fmt : ℚ → Str) (width height : ℕ) (background : Str)
    (radius : ℚ) (stroke : Option Str) (strokeWidth : ℚ) (shadow : Bool) : Str :=
  ("<rect width=\"").data ++ natStr width ++ ("\" height=\"").data ++
    natStr height ++ ("\" fill=\"").data ++
    (if background = ("transparent").data then ("none").data else background) ++
    ("\"").data ++ roundCornerAttr fmt radius ++
    strokeAttrs fmt stroke strokeWidth ++ shadowAttr shadow ++ (" />").data

/-- The renderer's own scale clamp: `Math.max(1, Math.min(scale, 4))`. -/
def clampScale (scale : ℚ) : ℚ := max 1 (min scale 4)

/-- The root element's opening tag. -/
def svgOpenTag (width height scaledWidth scaledHeight : ℕ) (label : Str) : Str :=
  ("<svg xmlns=\"http://www.w3.org/2000/svg\" width=\"").data ++
    natStr width ++ ("\" height=\"").data ++ natStr height ++
    ("\" viewBox=\"0 0 ").data ++ natStr scaledWidth ++ (" ").data ++
    natStr scaledHeight ++ ("\" role=\"img\" aria-label=\"").data ++
    escapeXML label ++ ("\">").data

/-- The options record of `buildSVG`; optional fields carry the source's
destructuring defaults. -/
structure SvgOptions where
  width : ℕ
  height : ℕ
  background : Str
  foreground : Str
  text : Option Str := none
  fontFamily : Option Str := none
  fontSize : ℚ
  fontWeight : Option Str := none
  pad : ℚ
  align : Align
  wrap : Bool
  scale : Option ℚ := none
  radius : Option ℚ := none
  stroke : Option Str := none
  strokeWidth : Option ℚ := none
  shadow : Option Bool := none

/-- `buildSVG` from `src/svg.ts`. -/
def buildSVG (fmt : ℚ → Str) (o : SvgOptions) : Str :=
  let clampedScale := clampScale (o.scale.getD 1)
  let scaledWidth : ℕ := (max 1 (jsRound ((o.width : ℚ) * clampedScale))).toNat
  let scaledHeight : ℕ := (max 1 (jsRound ((o.height : ℚ) * clampedScale))).toNat
  let scaledPad := max 0 (o.pad * clampedScale)
  let effectiveFontSize := o.fontSize * clampedScale
  let lineHeight := effectiveFontSize * (1.2 : ℚ)
  let availableWidth := max 0 ((scaledWidth : ℚ) - scaledPad * 2)
  let lines :=
    match o.text with
    | some t => wrapText ⟨t, availableWidth, effectiveFontSize, o.wrap, none⟩
    | none => []
  let textX : ℚ :=
    match o.align with
    | .center => (scaledWidth : ℚ) / 2
    | .left => scaledPad
    | .right => (scaledWidth : ℚ) - scaledPad
  let textElements :=
    if lines = [] then []
    else buildText fmt lines ⟨textX, (scaledHeight : ℚ) / 2, lineHeight,
      o.foreground, alignToAnchor o.align, o.fontFamily.getD defaultFont,
      effectiveFontSize, o.fontWeight⟩
  let rectAttributes := buildRect fmt scaledWidth scaledHeight o.background
    (o.radius.getD 0) o.stroke (o.strokeWidth.getD 0) (o.shadow.getD false)
  let filterDefs := if o.shadow.getD false then buildShadowFilter else []
  svgOpenTag o.width o.height scaledWidth scaledHeight
      (o.text.getD (natStr o.width ++ ("x").data ++ natStr o.height)) ++
    filterDefs ++ rectAttributes ++ textElements ++ ("</svg>").data

theorem buildSVG_head (fmt : ℚ → Str) (o : SvgOptions) :
    ∃ rest, buildSVG fmt o =
      ("<svg xmlns=\"http://www.w3.org/2000/svg\" width=\"").data ++
      natStr o.width ++ ("\" height=\"").data ++ natStr o.height ++
      ("\" viewBox=\"0 0 ").data ++
      natStr ((max 1 (jsRound ((o.width : ℚ) * clampScale (o.scale.getD 1)))).toNat) ++
      (" ").data ++
      natStr ((max 1 (jsRound ((o.height : ℚ) * clampScale (o.scale.getD 1)))).toNat) ++
      ("\" role=\"img\" aria-label=\"").data ++
      escapeXML (o.text.getD (natStr o.width ++ ("x").data ++ natStr o.height)) ++
      ("\">").data ++ rest := by
  simp only [buildSVG, svgOpenTag, List.append_assoc]
  exact ⟨_, rfl⟩

/-- Claim C5: `buildSVG` clamps the scale factor into `[1, 4]` whatever
value it receives, declares the root element's external `width`/`height`
attributes as the unscaled requested dimensions, and sets the `viewBox`
to `0 0 W H` with `W = max(1, round(width·clampedScale))` and
`H = max(1, round(height·clampedScale))`. -/
theorem claim5_root_element :
    (∀ q : ℚ, 1 ≤ clampScale q ∧ clampScale q ≤ 4) ∧
    (∀ fmt o, ∃ rest, buildSVG fmt o =
      ("<svg xmlns=\"http://www.w3.org/2000/svg\" width=\"").data ++
      natStr o.width ++ ("\" height=\"").data ++ natStr o.height ++
      ("\" viewBox=\"0 0 ").data ++
      natStr ((max 1 (jsRound ((o.width : ℚ) * clampScale (o.scale.getD 1)))).toNat) ++
      (" ").data ++
      natStr ((max 1 (jsRound ((o.height : ℚ) * clampScale (o.scale.getD 1)))).toNat) ++
      ("\" role=\"img\" aria-label=\"").data ++
      escapeXML (o.text.getD (natStr o.width ++ ("x").data ++ natStr o.height)) ++
      ("\">").data ++ rest) := by
  constructor
  · intro q
    refine ⟨le_max_left _ _, ?_⟩
    unfold clampScale
    exact max_le (by norm_num) (min_le_right _ _)
  · intro fmt o
    exact buildSVG_head fmt o

/-- Claim C9: every user-supplied string embedded in the markup — each
caption line and the font family and weight (in `buildText`), and the
root accessibility label (in `buildSVG`) — passes through `escapeXML`,
and for every input string the escaped result contains no raw `<`, `>`,
`"` or `'` and decomposes into blocks that are either one of the five
character entities (each starting with the only `&` it contains) or a
single non-reserved character. -/
theorem claim9_escaping :
    (∀ s : Str,
      (∀ c ∈ escapeXML s, c ≠ '<' ∧ c ≠ '>' ∧ c ≠ '"' ∧ c ≠ squote) ∧
      escapeXML s = strConcat (s.map escChar) ∧
      (∀ b ∈ s.map escChar,
        b ∈ xmlEntities ∨ ∃ d, b = [d] ∧ d ∉ xmlReserved)) ∧
    (∀ (fmt : ℚ → Str) (lines : List Str) (o : TextOptions),
      buildText fmt lines o =
        ("<text x=\"").data ++ fmt o.x ++ ("\" fill=\"").data ++ o.fill ++
        ("\" text-anchor=\"").data ++ o.anchor ++
        ("\" font-family=\"").data ++ escapeXML o.fontFamily ++
        ("\" font-size=\"").data ++ fmt o.fontSize ++
        ("\" dominant-baseline=\"middle\"").data ++
        (match o.fontWeight with
          | none => []
          | some w => (" font-weight=\"").data ++ escapeXML w ++ ("\"").data) ++
        (">").data ++
        strConcat ((lines.enum).map (fun p =>
          ("<tspan x=\"").data ++ fmt o.x ++ ("\" y=\"").data ++
            fmt (o.yStart -
                o.lineHeight * ((lines.length : ℚ) - 1) * (0.5 : ℚ) +
              (p.1 : ℚ) * o.lineHeight) ++ ("\">").data ++
            escapeXML p.2 ++ ("</tspan>").data)) ++
        ("</text>").data) ∧
    (∀ fmt o, ∃ rest, buildSVG fmt o =
      ("<svg xmlns=\"http://www.w3.org/2000/svg\" width=\"").data ++
      natStr o.width ++ ("\" height=\"").data ++ natStr o.height ++
      ("\" viewBox=\"0 0 ").data ++
      natStr ((max 1 (jsRound ((o.width : ℚ) * clampScale (o.scale.getD 1)))).toNat) ++
      (" ").data ++
      natStr ((max 1 (jsRound ((o.height : ℚ) * clampScale (o.scale.getD 1)))).toNat) ++
      ("\" role=\"img\" aria-label=\"").data ++
      escapeXML (o.text.getD (natStr o.width ++ ("x").data ++ natStr o.height)) ++
      ("\">").data ++ rest) := by
  refine ⟨?_, ?_, fun fmt o => buildSVG_head fmt o⟩
  · intro s
    refine ⟨escapeXML_no_raw s, escapeXML_eq_blocks s, ?_⟩
    intro b hb
    obtain ⟨c, _, rfl⟩ := List.mem_map.mp hb
    exact escChar_safe c
  · intro fmt lines o
    rfl

/-- Claim C9 witness: the safety conjunct applied to a string containing
a raw `<`. -/
theorem claim9_witness :
    ('a' ∈ escapeXML (("a<b").data)) ∧
      ('a' ≠ '<' ∧ 'a' ≠ '>' ∧ 'a' ≠ '"' ∧ 'a' ≠ squote) :=
  ⟨by decide, (claim9_escaping.1 (("a<b").data)).1 'a' (by decide)⟩

/-! ## Fingerprinting (`renderSvg` and `hashString` from `src/index.ts`)

The SHA-256 primitive (`crypto.subtle.digest`) is a platform API; it is
abstracted as a `digest` parameter, constrained where needed to its
contract of producing 32 bytes deterministically. -/

/-- Hex digit character, as produced by `byte.toString(16)`. -/
def hexChar (d : ℕ) : Char :=
  if d < 10 then Char.ofNat (48 + d) else Char.ofNat (87 + d)

/-- The base-16 digit expansion of `Number.prototype.toString(16)`,
driven by a step bound (`n + 1` steps always suffice). -/
def natHexGo : ℕ → ℕ → Str
  | 0, _ => []
  | fuel + 1, n =>
      if n < 16 then [hexChar n]
      else natHexGo fuel (n / 16) ++ [hexChar (n % 16)]

/-- `byte.toString(16)`: lowercase hex, no padding. -/
def natHex (n : ℕ) : Str := natHexGo (n + 1) n

/-- `.padStart(2, '0')`. -/
def padStart2 (s : Str) : Str :=
  if s.length < 2 then List.replicate (2 - s.length) '0' ++ s else s

/-- `hashString` from `src/index.ts`: the digest bytes rendered as
two-digit lowercase hex and truncated to 32 characters. -/
def hashString (digest : Str → List ℕ) (s : Str) : Str :=
  (strConcat ((digest s).map (fun b => padStart2 (natHex b)))).take 32

/-- The serialized form of an alignment value. -/
def alignStr : Align → Str
  | .left => ("left").data
  | .center => ("center").data
  | .right => ("right").data

/-- The string escaping of `JSON.stringify` (quotes, backslashes and the
common control characters). -/
def jsonEscape (s : Str) : Str :=
  s.foldr
    (fun c acc =>
      (if c = '"' then ['\\', '"']
       else if c = '\\' then ['\\', '\\']
       else if c = '\n' then ['\\', 'n']
       else if c = '\r' then ['\\', 'r']
       else if c = '\t' then ['\\', 't']
       else [c]) ++ acc) []

/-- A JSON string literal. -/
def jsonStr (s : Str) : Str := '"' :: (jsonEscape s ++ [('"' : Char)])

/-- The resolved render configuration, with exactly the fields (in
order) that `renderSvg` serializes into the ETag payload; `radius` and
`strokeWidth` hold the already-scaled values the payload carries, and
optional fields are `undefined`-omitted. -/
structure RenderConfig where
  width : ℕ
  height : ℕ
  background : Str
  foreground : Str
  text : Str
  fontFamily : Option Str
  fontSize : ℚ
  pad : ℚ
  fontWeight : Option Str
  align : Align
  wrap : Bool
  scale : ℚ
  radius : ℚ
  stroke : Option Str
  strokeWidth : Option ℚ
  shadow : Bool
deriving DecidableEq

/-- `JSON.stringify` of the ETag payload object of `renderSvg`: fields in
source order, `undefined` (absent) fields omitted. -/
def serializeConfig (fmt : ℚ → Str) (c : RenderConfig) : Str :=
  let fields : List (Option Str) :=
    [some (("\"width\":").data ++ natStr c.width),
     some (("\"height\":").data ++ natStr c.height),
     some (("\"background\":").data ++ jsonStr c.background),
     some (("\"foreground\":").data ++ jsonStr c.foreground),
     some (("\"text\":").data ++ jsonStr c.text),
     c.fontFamily.map (fun f => ("\"fontFamily\":").data ++ jsonStr f),
     some (("\"fontSize\":").data ++ fmt c.fontSize),
     some (("\"pad\":").data ++ fmt c.pad),
     c.fontWeight.map (fun w => ("\"fontWeight\":").data ++ jsonStr w),
     some (("\"align\":").data ++ jsonStr (alignStr c.align)),
     some (("\"wrap\":").data ++
       (if c.wrap then ("true").data else ("false").data)),
     some (("\"scale\":").data ++ fmt c.scale),
     some (("\"radius\":").data ++ fmt c.radius),
     c.stroke.map (fun sc => ("\"stroke\":").data ++ jsonStr sc),
     c.strokeWidth.map (fun sw => ("\"strokeWidth\":").data ++ fmt sw),
     some (("\"shadow\":").data ++
       (if c.shadow then ("true").data else ("false").data))]
  ("\x7b").data ++ joinSep ([',']) (fields.filterMap id) ++ ("\x7d").data

/-- The fingerprint computed while handling a request: the `fetch`
handler has the request method and headers in scope, but the ETag hash
of `renderSvg` is built from the resolved configuration alone — the two
extra arguments are deliberately unused, mirroring the source. -/
def requestFingerprint (digest : Str → List ℕ) (fmt : ℚ → Str)
    (method : Str) (headers : List (Str × Str)) (c : RenderConfig) : Str :=
  hashString digest (serializeConfig fmt c)

/-- The quoted `ETag` header value `"<hash>"`. -/
def renderEtag (digest : Str → List ℕ) (fmt : ℚ → Str) (c : RenderConfig) : Str :=
  '"' :: (hashString digest (serializeConfig fmt c) ++ [('"' : Char)])

theorem hexChar_isLowerHex (d : ℕ) (hd : d < 16) :
    isLowerHexDigit (hexChar d) = true := by
  interval_cases d <;> decide

theorem natHex_byte (b : ℕ) (hb : b < 256) :
    (padStart2 (natHex b)).length = 2 ∧
    ∀ ch ∈ padStart2 (natHex b), isLowerHexDigit ch = true := by
  by_cases h : b < 16
  · have h1 : natHex b = [hexChar b] := by
      unfold natHex natHexGo
      rw [if_pos h]
    rw [h1]
    have h2 : padStart2 [hexChar b] = ['0', hexChar b] := by
      unfold padStart2
      rw [if_pos (by simp)]
      rfl
    rw [h2]
    refine ⟨rfl, ?_⟩
    intro ch hch
    rcases List.mem_cons.mp hch with rfl | hch
    · decide
    rcases List.mem_singleton.mp hch with rfl
    exact hexChar_isLowerHex b h
  · have hdiv : b / 16 < 16 := by omega
    obtain ⟨m, rfl⟩ : ∃ m, b = m + 1 := ⟨b - 1, by omega⟩
    have hstep : ∀ fuel n : ℕ, natHexGo (fuel + 1) n =
        if n < 16 then [hexChar n]
        else natHexGo fuel (n / 16) ++ [hexChar (n % 16)] := fun _ _ => rfl
    have h1 : natHex (m + 1) = [hexChar ((m + 1) / 16), hexChar ((m + 1) % 16)] := by
      unfold natHex
      rw [hstep, if_neg h, hstep, if_pos hdiv]
      rfl
    rw [h1]
    have h2 : padStart2 [hexChar ((m + 1) / 16), hexChar ((m + 1) % 16)] =
        [hexChar ((m + 1) / 16), hexChar ((m + 1) % 16)] := by
      unfold padStart2
      rw [if_neg (by simp)]
    rw [h2]
    refine ⟨rfl, ?_⟩
    intro ch hch
    rcases List.mem_cons.mp hch with rfl | hch
    · exact hexChar_isLowerHex _ hdiv
    rcases List.mem_singleton.mp hch with rfl
    exact hexChar_isLowerHex _ (by omega)

theorem strConcat_len_two (ls : List Str) (h : ∀ x ∈ ls, x.length = 2) :
    (strConcat ls).length = 2 * ls.length := by
  induction ls with
  | nil => rfl
  | cons x rest ih =>
      show (x ++ strConcat rest).length = 2 * (rest.length + 1)
      rw [List.length_append, h x (by simp),
        ih (fun y hy => h y (List.mem_cons_of_mem x hy))]
      ring

theorem strConcat_mem (ls : List Str) (ch : Char) (h : ch ∈ strConcat ls) :
    ∃ x ∈ ls, ch ∈ x := by
  induction ls with
  | nil =>
      rw [show strConcat ([] : List Str) = [] from rfl] at h
      exact absurd h (List.not_mem_nil ch)
  | cons x rest ih =>
      rcases List.mem_append.mp h with h1 | h2
      · exact ⟨x, by simp, h1⟩
      · obtain ⟨y, hy, hcy⟩ := ih h2
        exact ⟨y, List.mem_cons_of_mem x hy, hcy⟩

/-- Claim C6: the fingerprint is a deterministic function of the resolved
render configuration alone — field-wise equal configurations produce the
same fingerprint whatever the request method or headers are — and (under
the digest contract of 32 bytes) it is always 32 lowercase hex
characters. -/
theorem claim6_fingerprint :
    (∀ digest fmt m1 h1 m2 h2 (c1 c2 : RenderConfig), c1 = c2 →
      requestFingerprint digest fmt m1 h1 c1 =
        requestFingerprint digest fmt m2 h2 c2) ∧
    (∀ (digest : Str → List ℕ) (fmt : ℚ → Str) (m : Str)
        (h : List (Str × Str)) (c : RenderConfig),
      (∀ s, (digest s).length = 32) →
      (∀ s b, b ∈ digest s → b < 256) →
      (requestFingerprint digest fmt m h c).length = 32 ∧
      ∀ ch ∈ requestFingerprint digest fmt m h c,
        isLowerHexDigit ch = true) := by
  constructor
  · intro digest fmt m1 h1 m2 h2 c1 c2 hc
    rw [hc]
    rfl
  · intro digest fmt m h c hlen hbyte
    unfold requestFingerprint hashString
    set bs := digest (serializeConfig fmt c) with hbs
    have hblocks : ∀ x ∈ bs.map (fun b => padStart2 (natHex b)), x.length = 2 := by
      intro x hx
      obtain ⟨b, hb, rfl⟩ := List.mem_map.mp hx
      exact (natHex_byte b (hbyte _ b hb)).1
    have hc64 : (strConcat (bs.map (fun b => padStart2 (natHex b)))).length = 64 := by
      rw [strConcat_len_two _ hblocks, List.length_map, hbs, hlen]
    constructor
    · rw [List.length_take, hc64]
      omega
    · intro ch hch
      have hch' := List.take_subset 32 _ hch
      obtain ⟨x, hx, hcx⟩ := strConcat_mem _ ch hch'
      obtain ⟨b, hb, rfl⟩ := List.mem_map.mp hx
      exact (natHex_byte b (hbyte _ b hb)).2 ch hcx

/-- Claim C6 witness: the theorem applied with a concrete 32-byte digest
function and a concrete resolved configuration. -/
theorem claim6_witness :
    (requestFingerprint (fun _ => List.range 32) (fun _ => []) (("GET").data)
        []
        ⟨600, 300, ("#ff0000").data, ("#ffffff").data, [], none, 50, 0,
          none, .center, false, 1, 0, none, none, false⟩).length = 32 ∧
    ∀ ch ∈ requestFingerprint (fun _ => List.range 32) (fun _ => [])
        (("GET").data) []
        ⟨600, 300, ("#ff0000").data, ("#ffffff").data, [], none, 50, 0,
          none, .center, false, 1, 0, none, none, false⟩,
      isLowerHexDigit ch = true :=
  claim6_fingerprint.2 (fun _ => List.range 32) (fun _ => []) (("GET").data)
    []
    ⟨600, 300, ("#ff0000").data, ("#ffffff").data, [], none, 50, 0,
      none, .center, false, 1, 0, none, none, false⟩
    (fun _ => by simp)
    (fun _ b hb => by
      have := List.mem_range.mp hb
      omega)

/-! ## Fixed points of `parseColor` (claim C10) -/

theorem char_toNat_ofNat (n : ℕ) (h : n < 55296) : (Char.ofNat n).toNat = n := by
  unfold Char.ofNat
  rw [dif_pos (Or.inl h)]
  simp [Char.ofNatAux, Char.toNat, UInt32.toNat, UInt32.ofNatCore,
    BitVec.toNat_ofNatLt]

theorem toLowerJs_idem (c : Char) : toLowerJs (toLowerJs c) = toLowerJs c := by
  unfold toLowerJs
  by_cases h : 65 ≤ c.toNat ∧ c.toNat ≤ 90
  · rw [if_pos h]
    have ht : (Char.ofNat (c.toNat + 32)).toNat = c.toNat + 32 :=
      char_toNat_ofNat _ (by omega)
    rw [if_neg (by rw [ht]; omega)]
  · rw [if_neg h, if_neg h]

theorem mem_toLowerStr_fixed (x : Str) : ∀ c ∈ toLowerStr x, toLowerJs c = c := by
  intro c hc
  obtain ⟨a, _, rfl⟩ := List.mem_map.mp hc
  exact toLowerJs_idem a

theorem toLowerStr_eq_self (l : Str) (h : ∀ c ∈ l, toLowerJs c = c) :
    toLowerStr l = l := by
  induction l with
  | nil => rfl
  | cons c rest ih =>
      show toLowerJs c :: toLowerStr rest = c :: rest
      rw [h c (by simp), ih (fun d hd => h d (List.mem_cons_of_mem c hd))]

theorem isLowerHexDigit_not_ws (c : Char) (h : isLowerHexDigit c = true) :
    isWs c = false := by
  simp only [isLowerHexDigit, isDigit, Bool.or_eq_true, Bool.and_eq_true,
    decide_eq_true_eq] at h
  simp only [isWs, Bool.or_eq_false_iff, decide_eq_false_iff_not]
  omega

theorem isLowerHexDigit_lower_fixed (c : Char) (h : isLowerHexDigit c = true) :
    toLowerJs c = c := by
  simp only [isLowerHexDigit, isDigit, Bool.or_eq_true, Bool.and_eq_true,
    decide_eq_true_eq] at h
  unfold toLowerJs
  rw [if_neg (by omega)]

theorem trim_eq_self_of_all (l : Str) (h : ∀ c ∈ l, isWs c = false) :
    trim l = l :=
  trim_eq_self_of_ends l (fun c hc => h c (mem_of_head? l c hc))
    (fun c hc => h c (mem_of_getLast? l c hc))

theorem trimRight_length_le (l : Str) : (trimRight l).length ≤ l.length := by
  unfold trimRight
  rw [List.length_reverse]
  have := dropWhile_length_le isWs l.reverse
  simpa using this

theorem trim_head_not_ws (q : Str) (hq : trim q = q) :
    ∀ c, q.head? = some c → isWs c = false := by
  intro c hc
  cases q with
  | nil => exact Option.noConfusion hc
  | cons a rest =>
      have hac : a = c := Option.some.inj (by simpa using hc)
      subst hac
      by_cases hw : isWs a = true
      · exfalso
        have h1 : trimLeft (a :: rest) = trimLeft rest := by
          unfold trimLeft
          exact List.dropWhile_cons_of_pos (by simp [hw])
        have h2 : (trim (a :: rest)).length ≤ rest.length := by
          unfold trim
          rw [h1]
          calc (trimRight (trimLeft rest)).length
              ≤ (trimLeft rest).length := trimRight_length_le _
            _ ≤ rest.length := dropWhile_length_le _ _
        rw [hq] at h2
        simp at h2
      · simpa using hw

theorem dropWhile_subset {α : Type} (p : α → Bool) :
    ∀ (l : List α) (c : α), c ∈ l.dropWhile p → c ∈ l := by
  intro l
  induction l with
  | nil => intro c hc; exact absurd hc (by simp)
  | cons a rest ih =>
      intro c hc
      rw [List.dropWhile_cons] at hc
      by_cases hp : p a = true
      · rw [if_pos hp] at hc
        exact List.mem_cons_of_mem a (ih c hc)
      · rw [if_neg hp] at hc
        exact hc

theorem trim_subset (l : Str) : ∀ c ∈ trim l, c ∈ l := by
  intro c hc
  unfold trim trimRight trimLeft at hc
  rw [List.mem_reverse] at hc
  have h1 := dropWhile_subset isWs _ c hc
  rw [List.mem_reverse] at h1
  exact dropWhile_subset isWs l c h1

theorem expandHex3_length : ∀ h : Str, (expandHex3 h).length = 2 * h.length := by
  intro h
  induction h with
  | nil => rfl
  | cons c rest ih =>
      show (c :: c :: expandHex3 rest).length = 2 * (rest.length + 1)
      simp only [List.length_cons, ih]
      ring

theorem expandHex3_mem : ∀ (h : Str) (c : Char), c ∈ expandHex3 h → c ∈ h := by
  intro h
  induction h with
  | nil => intro c hc; exact absurd hc (by simp [expandHex3])
  | cons a rest ih =>
      intro c hc
      rcases List.mem_cons.mp hc with rfl | hc
      · simp
      rcases List.mem_cons.mp hc with rfl | hc
      · simp
      exact List.mem_cons_of_mem a (ih c hc)

theorem lookupColor_none_of_pred (n : Str) (tbl : List (Str × Str))
    (p : Char → Bool) (hn : ∃ c ∈ n, p c = true)
    (htbl : ∀ kv ∈ tbl, kv.1.all (fun c => !p c) = true) :
    lookupColor n tbl = none := by
  induction tbl with
  | nil => rfl
  | cons kv rest ih =>
      obtain ⟨k, v⟩ := kv
      show (if n = k then some v else lookupColor n rest) = none
      rw [if_neg ?hne]
      · exact ih (fun kv hkv => htbl kv (List.mem_cons_of_mem _ hkv))
      case hne =>
        intro he
        obtain ⟨c, hcm, hcp⟩ := hn
        have hk := htbl (k, v) (by simp)
        rw [List.all_eq_true] at hk
        have := hk c (he ▸ hcm)
        simp [hcp] at this

theorem lookupColor_mem (n : Str) (v : Str) :
    ∀ tbl : List (Str × Str), lookupColor n tbl = some v → ∃ k, (k, v) ∈ tbl := by
  intro tbl
  induction tbl with
  | nil => intro h; exact Option.noConfusion h
  | cons kv rest ih =>
      obtain ⟨k, v'⟩ := kv
      intro h
      rw [show lookupColor n ((k, v') :: rest) =
        (if n = k then some v' else lookupColor n rest) from rfl] at h
      by_cases he : n = k
      · rw [if_pos he] at h
        exact ⟨k, by rw [Option.some.inj h]; simp⟩
      · rw [if_neg he] at h
        obtain ⟨k', hk'⟩ := ih h
        exact ⟨k', List.mem_cons_of_mem _ hk'⟩

theorem cssColors_fixed : ∀ kv ∈ cssColors, parseColor kv.2 = some kv.2 := by
  decide

theorem parseColor_hex_fixed (d : Str) (hlen : d.length = 6)
    (hhex : ∀ c ∈ d, isLowerHexDigit c = true) :
    parseColor ('#' :: d) = some ('#' :: d) := by
  have hall_ws : ∀ c ∈ ('#' :: d), isWs c = false := by
    intro c hc
    rcases List.mem_cons.mp hc with rfl | hc
    · decide
    · exact isLowerHexDigit_not_ws c (hhex c hc)
  have hall_lower : ∀ c ∈ ('#' :: d), toLowerJs c = c := by
    intro c hc
    rcases List.mem_cons.mp hc with rfl | hc
    · decide
    · exact isLowerHexDigit_lower_fixed c (hhex c hc)
  have hn : normColor ('#' :: d) = '#' :: d := by
    unfold normColor
    rw [trim_eq_self_of_all _ hall_ws, toLowerStr_eq_self _ hall_lower]
  have h1 : isTransTok (normColor ('#' :: d)) = false := by
    rw [hn]
    simp [isTransTok]
  have h2 : lookupColor (normColor ('#' :: d)) cssColors = none := by
    rw [hn]
    exact lookupColor_none_of_pred _ _ (fun c => decide (c = '#'))
      ⟨'#', by simp, by simp⟩ (by decide)
  have h3 : hexForm (normColor ('#' :: d)) = true := by
    rw [hn]
    show (decide ('#' = '#') && (decide (d.length = 3) || decide (d.length = 6)) &&
      d.all isLowerHexDigit) = true
    rw [hlen]
    simp only [Bool.and_eq_true, Bool.or_eq_true, decide_eq_true_eq,
      List.all_eq_true]
    exact ⟨⟨trivial, Or.inr trivial⟩, hhex⟩
  rw [parseColor_hex ('#' :: d) h1 h2 h3, hn]
  show some (if d.length = 3 then '#' :: expandHex3 d else '#' :: d) =
    some ('#' :: d)
  rw [if_neg (by omega)]

theorem splitComma_cons (c : Char) (s : Str) :
    splitComma (c :: s) =
      if c = ',' then [] :: splitComma s
      else (c :: (splitComma s).headD []) :: (splitComma s).tail := rfl

theorem splitComma_nil : splitComma [] = [[]] := rfl

theorem splitComma_ne_nil (s : Str) : splitComma s ≠ [] := by
  induction s with
  | nil => simp [splitComma_nil]
  | cons a s ih =>
      rw [splitComma_cons]
      by_cases ha : a = ','
      · rw [if_pos ha]; simp
      · rw [if_neg ha]; simp

theorem mem_tail_subset {α : Type} (l : List α) (x : α) (h : x ∈ l.tail) :
    x ∈ l := by
  cases l with
  | nil => exact absurd h (by simp)
  | cons a rest => exact List.mem_cons_of_mem a h

theorem headD_mem (l : List Str) (h : l ≠ []) : l.headD [] ∈ l := by
  cases l with
  | nil => exact absurd rfl h
  | cons a rest => simp

theorem headD_mem_char (l : List Char) (h : l ≠ []) : l.headD ')' ∈ l := by
  cases l with
  | nil => exact absurd rfl h
  | cons a rest => simp

theorem splitComma_no_comma (s : Str) :
    ∀ q ∈ splitComma s, ∀ c ∈ q, c ≠ ',' := by
  induction s with
  | nil =>
      intro q hq c hc
      rw [splitComma_nil] at hq
      rcases List.mem_singleton.mp hq with rfl
      exact absurd hc (by simp)
  | cons a s ih =>
      intro q hq c hc
      rw [splitComma_cons] at hq
      by_cases ha : a = ','
      · rw [if_pos ha] at hq
        rcases List.mem_cons.mp hq with rfl | hq
        · exact absurd hc (by simp)
        · exact ih q hq c hc
      · rw [if_neg ha] at hq
        rcases List.mem_cons.mp hq with rfl | hq
        · rcases List.mem_cons.mp hc with rfl | hc
          · exact ha
          · exact ih _ (headD_mem _ (splitComma_ne_nil s)) c hc
        · exact ih q (mem_tail_subset _ q hq) c hc

theorem splitComma_chars (s : Str) :
    ∀ q ∈ splitComma s, ∀ c ∈ q, c ∈ s := by
  induction s with
  | nil =>
      intro q hq c hc
      rw [splitComma_nil] at hq
      rcases List.mem_singleton.mp hq with rfl
      exact absurd hc (by simp)
  | cons a s ih =>
      intro q hq c hc
      rw [splitComma_cons] at hq
      by_cases ha : a = ','
      · rw [if_pos ha] at hq
        rcases List.mem_cons.mp hq with rfl | hq
        · exact absurd hc (by simp)
        · exact List.mem_cons_of_mem a (ih q hq c hc)
      · rw [if_neg ha] at hq
        rcases List.mem_cons.mp hq with rfl | hq
        · rcases List.mem_cons.mp hc with rfl | hc
          · simp
          · exact List.mem_cons_of_mem a
              (ih _ (headD_mem _ (splitComma_ne_nil s)) c hc)
        · exact List.mem_cons_of_mem a (ih q (mem_tail_subset _ q hq) c hc)

theorem splitComma_single (s : Str) (h : ∀ c ∈ s, c ≠ ',') :
    splitComma s = [s] := by
  induction s with
  | nil => rfl
  | cons a s ih =>
      rw [splitComma_cons, if_neg (h a (by simp)),
        ih (fun c hc => h c (List.mem_cons_of_mem a hc))]
      rfl

theorem splitComma_append_comma (q z : Str) (h : ∀ c ∈ q, c ≠ ',') :
    splitComma (q ++ (',' :: z)) = q :: splitComma z := by
  induction q with
  | nil =>
      rw [List.nil_append, splitComma_cons, if_pos rfl]
  | cons a q' ih =>
      rw [List.cons_append, splitComma_cons, if_neg (h a (by simp)),
        ih (fun c hc => h c (List.mem_cons_of_mem a hc))]
      rfl

theorem trim_ws_cons (c : Char) (x : Str) (hc : isWs c = true) :
    trim (c :: x) = trim x := by
  unfold trim trimLeft
  rw [List.dropWhile_cons_of_pos (by simp [hc])]

theorem splitComma_roundtrip :
    ∀ qs : List Str, qs ≠ [] →
      (∀ q ∈ qs, ∀ c ∈ q, c ≠ ',') → (∀ q ∈ qs, trim q = q) →
      (splitComma (joinSep ((", ").data) qs)).map trim = qs := by
  intro qs
  induction qs with
  | nil => intro h; exact absurd rfl h
  | cons q qs' ih =>
      intro _ hnc htr
      cases qs' with
      | nil =>
          rw [show joinSep ((", ").data) [q] = q from rfl,
            splitComma_single q (hnc q (by simp))]
          simp [htr q (by simp)]
      | cons q2 rest =>
          have hj : joinSep ((", ").data) (q :: q2 :: rest) =
              q ++ (',' :: (' ' :: joinSep ((", ").data) (q2 :: rest))) := by
            rw [show joinSep ((", ").data) (q :: q2 :: rest) =
              q ++ ((", ").data) ++ joinSep ((", ").data) (q2 :: rest) from rfl,
              List.append_assoc]
            rfl
          rw [hj, splitComma_append_comma q _ (hnc q (by simp)),
            splitComma_cons, if_neg (by decide)]
          have hS := ih (by simp)
            (fun x hx => hnc x (List.mem_cons_of_mem q hx))
            (fun x hx => htr x (List.mem_cons_of_mem q hx))
          cases hsp : splitComma (joinSep ((", ").data) (q2 :: rest)) with
          | nil => exact absurd hsp (splitComma_ne_nil _)
          | cons h0 t0 =>
              rw [hsp] at hS
              simp only [List.headD_cons, List.tail_cons]
              simp only [List.map_cons] at hS ⊢
              have h1 : trim h0 = q2 := (List.cons.injEq _ _ _ _ ▸ hS).1
              have h2 : t0.map trim = rest := (List.cons.injEq _ _ _ _ ▸ hS).2
              rw [htr q (by simp), trim_ws_cons ' ' h0 (by decide), h1, h2]

theorem joinSep_chars (sep : Str) :
    ∀ (ls : List Str) (c : Char),
      c ∈ joinSep sep ls → c ∈ sep ∨ ∃ q ∈ ls, c ∈ q := by
  intro ls
  induction ls with
  | nil =>
      intro c hc
      exact absurd hc (List.not_mem_nil c)
  | cons q ls' ih =>
      intro c hc
      cases ls' with
      | nil =>
          right
          exact ⟨q, by simp, hc⟩
      | cons q2 rest =>
          rw [show joinSep sep (q :: q2 :: rest) =
            q ++ sep ++ joinSep sep (q2 :: rest) from rfl] at hc
          rcases List.mem_append.mp hc with hc1 | hc2
          · rcases List.mem_append.mp hc1 with hq | hs
            · exact Or.inr ⟨q, by simp, hq⟩
            · exact Or.inl hs
          · rcases ih c hc2 with h | ⟨q', hq', hcq'⟩
            · exact Or.inl h
            · exact Or.inr ⟨q', List.mem_cons_of_mem q hq', hcq'⟩

theorem joinSep_head_not_ws (qs : List Str)
    (htr : ∀ q ∈ qs, trim q = q) :
    ∀ c, (joinSep ((", ").data) qs).head? = some c → isWs c = false := by
  intro c hc
  cases qs with
  | nil => exact Option.noConfusion hc
  | cons q qs' =>
      cases qs' with
      | nil => exact trim_head_not_ws q (htr q (by simp)) c hc
      | cons q2 rest =>
          have hj : joinSep ((", ").data) (q :: q2 :: rest) =
              q ++ ((", ").data ++ joinSep ((", ").data) (q2 :: rest)) := by
            rw [show joinSep ((", ").data) (q :: q2 :: rest) =
              q ++ ((", ").data) ++ joinSep ((", ").data) (q2 :: rest) from rfl,
              List.append_assoc]
          by_cases hqe : q = []
          · rw [hj, hqe, List.nil_append] at hc
            have h2 : ((", ").data ++ joinSep ((", ").data) (q2 :: rest)).head? =
              some ',' := rfl
            rw [h2] at hc
            rw [← Option.some.inj hc]
            decide
          · rw [hj, head?_append_ne_nil q _ hqe] at hc
            exact trim_head_not_ws q (htr q (by simp)) c hc

theorem rejoin_fixed (cap : Str) : rejoin (rejoin cap) = rejoin cap := by
  unfold rejoin
  exact congrArg (joinSep ((", ").data)) (splitComma_roundtrip
    ((splitComma cap).map trim)
    (by simp [splitComma_ne_nil cap])
    (fun q hq c hc => by
      obtain ⟨p, hp, rfl⟩ := List.mem_map.mp hq
      exact splitComma_no_comma cap p hp c (trim_subset p c hc))
    (fun q hq => by
      obtain ⟨p, hp, rfl⟩ := List.mem_map.mp hq
      exact trim_trim p))

theorem rejoin_head_not_ws (cap : Str) :
    ∀ c, (rejoin cap).head? = some c → isWs c = false := by
  intro c hc
  exact joinSep_head_not_ws ((splitComma cap).map trim)
    (fun q hq => by
      obtain ⟨p, hp, rfl⟩ := List.mem_map.mp hq
      exact trim_trim p) c hc

theorem rejoin_no_paren (cap : Str) (h : ∀ c ∈ cap, c ≠ ')') :
    ∀ c ∈ rejoin cap, c ≠ ')' := by
  intro c hc
  rcases joinSep_chars _ _ c hc with hs | ⟨q, hq, hcq⟩
  · intro he
    rw [he] at hs
    exact absurd hs (by decide)
  · obtain ⟨p, hp, rfl⟩ := List.mem_map.mp hq
    exact h c (splitComma_chars cap p hp c (trim_subset p c hcq))

theorem rejoin_lower (cap : Str) (h : ∀ c ∈ cap, toLowerJs c = c) :
    ∀ c ∈ rejoin cap, toLowerJs c = c := by
  intro c hc
  rcases joinSep_chars _ _ c hc with hs | ⟨q, hq, hcq⟩
  · rcases List.mem_cons.mp hs with rfl | hs
    · decide
    rcases List.mem_singleton.mp hs with rfl
    decide
  · obtain ⟨p, hp, rfl⟩ := List.mem_map.mp hq
    exact h c (splitComma_chars cap p hp c (trim_subset p c hcq))

theorem innerCapture_spec (rest cap : Str) (h : innerCapture rest = some cap) :
    cap ≠ [] ∧ ∀ c ∈ cap, c ∈ rest ∧ c ≠ ')' := by
  unfold innerCapture at h
  cases hrev : rest.reverse with
  | nil =>
      rw [hrev] at h
      exact Option.noConfusion h
  | cons c0 revBody =>
      rw [hrev] at h
      replace h : (if c0 = ')' ∧ revBody ≠ [] ∧ ')' ∉ revBody then
          some (if revBody.reverse.dropWhile isWs = []
            then [revBody.headD ')']
            else revBody.reverse.dropWhile isWs)
          else none) = some cap := h
      by_cases hcond : c0 = ')' ∧ revBody ≠ [] ∧ ')' ∉ revBody
      · rw [if_pos hcond] at h
        obtain ⟨hc0, hbne, hnp⟩ := hcond
        have hmem : ∀ c ∈ revBody, c ∈ rest ∧ c ≠ ')' := by
          intro c hc
          constructor
          · have : c ∈ rest.reverse := by rw [hrev]; simp [hc]
            exact List.mem_reverse.mp this
          · intro he
            rw [he] at hc
            exact hnp hc
        by_cases ht : revBody.reverse.dropWhile isWs = []
        · rw [if_pos ht] at h
          have hcap : cap = [revBody.headD ')'] := (Option.some.inj h).symm
          rw [hcap]
          refine ⟨by simp, ?_⟩
          intro c hc
          rcases List.mem_singleton.mp hc with rfl
          exact hmem _ (headD_mem_char revBody hbne)
        · rw [if_neg ht] at h
          have hcap : cap = revBody.reverse.dropWhile isWs :=
            (Option.some.inj h).symm
          rw [hcap]
          refine ⟨ht, ?_⟩
          intro c hc
          have h1 := dropWhile_subset isWs _ c hc
          rw [List.mem_reverse] at h1
          exact hmem c h1
      · rw [if_neg hcond] at h
        exact Option.noConfusion h

theorem innerCapture_concat (comps : Str) (h1 : comps ≠ [])
    (h2 : ∀ c ∈ comps, c ≠ ')')
    (h3 : ∀ c, comps.head? = some c → isWs c = false) :
    innerCapture (comps ++ [')']) = some comps := by
  unfold innerCapture
  have hrev : (comps ++ [')']).reverse = ')' :: comps.reverse := by
    rw [List.reverse_append]
    rfl
  rw [hrev]
  show (if (')' : Char) = ')' ∧ comps.reverse ≠ [] ∧ ')' ∉ comps.reverse then
      some (if comps.reverse.reverse.dropWhile isWs = []
        then [comps.reverse.headD ')']
        else comps.reverse.reverse.dropWhile isWs)
      else none) = some comps
  rw [if_pos ⟨rfl, by simpa using h1,
    fun hmem => h2 ')' (List.mem_reverse.mp hmem) rfl⟩]
  rw [List.reverse_reverse]
  have ht : comps.dropWhile isWs = comps := by
    cases comps with
    | nil => rfl
    | cons c rest => exact List.dropWhile_cons_of_neg (by simp [h3 c rfl])
  rw [ht, if_neg h1]

theorem prefCapture_spec (tag n cap : Str) (h : prefCapture tag n = some cap) :
    cap ≠ [] ∧ ∀ c ∈ cap, c ∈ n ∧ c ≠ ')' := by
  unfold prefCapture at h
  by_cases ht : n.take tag.length = tag
  · rw [if_pos ht] at h
    obtain ⟨hne, hmem⟩ := innerCapture_spec _ _ h
    refine ⟨hne, fun c hc => ⟨List.drop_subset _ n (hmem c hc).1, (hmem c hc).2⟩⟩
  · rw [if_neg ht] at h
    exact Option.noConfusion h

theorem rgbCapture_spec (n cap : Str) (h : rgbCapture n = some cap) :
    cap ≠ [] ∧ ∀ c ∈ cap, c ∈ n ∧ c ≠ ')' := by
  unfold rgbCapture at h
  cases h1 : prefCapture (("rgba(").data) n with
  | some c1 =>
      rw [h1] at h
      rw [← Option.some.inj h]
      exact prefCapture_spec _ _ _ h1
  | none =>
      rw [h1] at h
      exact prefCapture_spec _ _ _ h

theorem hslCapture_spec (n cap : Str) (h : hslCapture n = some cap) :
    cap ≠ [] ∧ ∀ c ∈ cap, c ∈ n ∧ c ≠ ')' := by
  unfold hslCapture at h
  cases h1 : prefCapture (("hsla(").data) n with
  | some c1 =>
      rw [h1] at h
      rw [← Option.some.inj h]
      exact prefCapture_spec _ _ _ h1
  | none =>
      rw [h1] at h
      exact prefCapture_spec _ _ _ h

theorem head_ne_of (x y : Str) (h : x.head? ≠ y.head?) : x ≠ y :=
  fun he => h (by rw [he])

theorem func_norm (tag comps : Str) (t0 : Char) (htag_ne : tag ≠ [])
    (hh : tag.head? = some t0) (hws : isWs t0 = false)
    (htlow : ∀ c ∈ tag, toLowerJs c = c)
    (hlower : ∀ c ∈ comps, toLowerJs c = c) :
    normColor (tag ++ ('(' :: (comps ++ [')']))) =
      tag ++ ('(' :: (comps ++ [')'])) := by
  have hhd : (tag ++ ('(' :: (comps ++ [')']))).head? = some t0 := by
    rw [head?_append_ne_nil tag _ htag_ne]
    exact hh
  have hlast : (tag ++ ('(' :: (comps ++ [')']))).getLast? = some ')' := by
    rw [List.getLast?_append_of_ne_nil tag (by simp),
      getLast?_cons_ne_nil '(' _ (by simp)]
    exact List.getLast?_concat _
  have htrim : trim (tag ++ ('(' :: (comps ++ [')']))) =
      tag ++ ('(' :: (comps ++ [')'])) :=
    trim_eq_self_of_ends _
      (fun c hc => by rw [hhd] at hc; rw [← Option.some.inj hc]; exact hws)
      (fun c hc => by rw [hlast] at hc; rw [← Option.some.inj hc]; decide)
  unfold normColor
  rw [htrim]
  apply toLowerStr_eq_self
  intro c hc
  rcases List.mem_append.mp hc with h | h
  · exact htlow c h
  rcases List.mem_cons.mp h with rfl | h
  · decide
  rcases List.mem_append.mp h with h | h
  · exact hlower c h
  rcases List.mem_singleton.mp h with rfl
  decide

theorem func_guards (r : Str) (t0 : Char) (hh : r.head? = some t0)
    (hn : normColor r = r) (ht : t0 ≠ 't') (hhash : t0 ≠ '#')
    (hpar : '(' ∈ r) :
    isTransTok (normColor r) = false ∧
    lookupColor (normColor r) cssColors = none ∧
    hexForm (normColor r) = false := by
  rw [hn]
  refine ⟨?_, ?_, ?_⟩
  · simp only [isTransTok, Bool.or_eq_false_iff, decide_eq_false_iff_not]
    constructor
    · apply head_ne_of
      rw [hh, show (("t").data).head? = some 't' from rfl]
      intro he
      exact ht (Option.some.inj he)
    · apply head_ne_of
      rw [hh, show (("transparent").data).head? = some 't' from rfl]
      intro he
      exact ht (Option.some.inj he)
  · exact lookupColor_none_of_pred _ _ (fun c => decide (c = '('))
      ⟨'(', hpar, by simp⟩ (by decide)
  · cases r with
    | nil => rfl
    | cons c rest =>
        have hc : c = t0 := Option.some.inj (by simpa using hh)
        subst hc
        show (decide (c = '#') && (decide (rest.length = 3) ||
          decide (rest.length = 6)) && rest.all isLowerHexDigit) = false
        simp [hhash]

theorem parseColor_rgbTag_fixed (comps : Str)
    (hne : comps ≠ []) (hnp : ∀ c ∈ comps, c ≠ ')')
    (hlower : ∀ c ∈ comps, toLowerJs c = c)
    (hhead : ∀ c, comps.head? = some c → isWs c = false)
    (hfix : rejoin comps = comps) :
    parseColor (("rgb").data ++ ('(' :: (comps ++ [')']))) =
      some (("rgb").data ++ ('(' :: (comps ++ [')']))) := by
  set r := ("rgb").data ++ ('(' :: (comps ++ [')'])) with hr
  have hn : normColor r = r :=
    func_norm (("rgb").data) comps 'r' (by decide) rfl (by decide)
      (by decide) hlower
  obtain ⟨h1, h2, h3⟩ := func_guards r 'r' rfl hn (by decide) (by decide)
    (List.mem_append_right _ (by simp))
  have hcapA : prefCapture (("rgba(").data) r = none := by
    unfold prefCapture
    rw [if_neg ?hna]
    case hna =>
      intro he
      have hL : (r.take ((("rgba(").data).length)).getD 3 ' ' = '(' := rfl
      rw [he] at hL
      exact absurd hL (by decide)
  have hcapB : rgbCapture r = some comps := by
    unfold rgbCapture
    rw [hcapA]
    unfold prefCapture
    have hpre : List.take ((("rgb(").data).length) r = ("rgb(").data := rfl
    rw [if_pos hpre]
    rw [show List.drop ((("rgb(").data).length) r = comps ++ [')'] from rfl]
    exact innerCapture_concat comps hne hnp hhead
  have htag : rgbTag r = ("rgb").data := by
    unfold rgbTag
    rw [if_neg ?hnb]
    case hnb =>
      intro he
      have hL : (r.take 4).getD 3 ' ' = '(' := rfl
      rw [he] at hL
      exact absurd hL (by decide)
  rw [parseColor_rgb r comps h1 h2 h3 (by rw [hn]; exact hcapB), hn, htag,
    hfix]

theorem parseColor_rgbaTag_fixed (comps : Str)
    (hne : comps ≠ []) (hnp : ∀ c ∈ comps, c ≠ ')')
    (hlower : ∀ c ∈ comps, toLowerJs c = c)
    (hhead : ∀ c, comps.head? = some c → isWs c = false)
    (hfix : rejoin comps = comps) :
    parseColor (("rgba").data ++ ('(' :: (comps ++ [')']))) =
      some (("rgba").data ++ ('(' :: (comps ++ [')']))) := by
  set r := ("rgba").data ++ ('(' :: (comps ++ [')'])) with hr
  have hn : normColor r = r :=
    func_norm (("rgba").data) comps 'r' (by decide) rfl (by decide)
      (by decide) hlower
  obtain ⟨h1, h2, h3⟩ := func_guards r 'r' rfl hn (by decide) (by decide)
    (List.mem_append_right _ (by simp))
  have hcapB : rgbCapture r = some comps := by
    unfold rgbCapture
    unfold prefCapture
    have hpre : List.take ((("rgba(").data).length) r = ("rgba(").data := rfl
    rw [if_pos hpre]
    rw [show List.drop ((("rgba(").data).length) r = comps ++ [')'] from rfl]
    rw [innerCapture_concat comps hne hnp hhead]
  have htag : rgbTag r = ("rgba").data := by
    unfold rgbTag
    have hpre : List.take 4 r = ("rgba").data := rfl
    rw [if_pos hpre]
  rw [parseColor_rgb r comps h1 h2 h3 (by rw [hn]; exact hcapB), hn, htag,
    hfix]

theorem parseColor_hslTag_fixed (comps : Str)
    (hne : comps ≠ []) (hnp : ∀ c ∈ comps, c ≠ ')')
    (hlower : ∀ c ∈ comps, toLowerJs c = c)
    (hhead : ∀ c, comps.head? = some c → isWs c = false)
    (hfix : rejoin comps = comps) :
    parseColor (("hsl").data ++ ('(' :: (comps ++ [')']))) =
      some (("hsl").data ++ ('(' :: (comps ++ [')']))) := by
  set r := ("hsl").data ++ ('(' :: (comps ++ [')'])) with hr
  have hn : normColor r = r :=
    func_norm (("hsl").data) comps 'h' (by decide) rfl (by decide)
      (by decide) hlower
  obtain ⟨h1, h2, h3⟩ := func_guards r 'h' rfl hn (by decide) (by decide)
    (List.mem_append_right _ (by simp))
  have hcapA : prefCapture (("rgba(").data) r = none := by
    unfold prefCapture
    rw [if_neg ?hna]
    case hna =>
      intro he
      have hL : (r.take ((("rgba(").data).length)).getD 0 ' ' = 'h' := rfl
      rw [he] at hL
      exact absurd hL (by decide)
  have hcapA2 : prefCapture (("rgb(").data) r = none := by
    unfold prefCapture
    rw [if_neg ?hna2]
    case hna2 =>
      intro he
      have hL : (r.take ((("rgb(").data).length)).getD 0 ' ' = 'h' := rfl
      rw [he] at hL
      exact absurd hL (by decide)
  have hcap4 : rgbCapture r = none := by
    unfold rgbCapture
    rw [hcapA, hcapA2]
  have hcapC : prefCapture (("hsla(").data) r = none := by
    unfold prefCapture
    rw [if_neg ?hnc]
    case hnc =>
      intro he
      have hL : (r.take ((("hsla(").data).length)).getD 3 ' ' = '(' := rfl
      rw [he] at hL
      exact absurd hL (by decide)
  have hcapB : hslCapture r = some comps := by
    unfold hslCapture
    rw [hcapC]
    unfold prefCapture
    have hpre : List.take ((("hsl(").data).length) r = ("hsl(").data := rfl
    rw [if_pos hpre]
    rw [show List.drop ((("hsl(").data).length) r = comps ++ [')'] from rfl]
    exact innerCapture_concat comps hne hnp hhead
  have htag : hslTag r = ("hsl").data := by
    unfold hslTag
    rw [if_neg ?hnb]
    case hnb =>
      intro he
      have hL : (r.take 4).getD 3 ' ' = '(' := rfl
      rw [he] at hL
      exact absurd hL (by decide)
  rw [parseColor_hsl r comps h1 h2 h3 (by rw [hn]; exact hcap4)
    (by rw [hn]; exact hcapB), hn, htag, hfix]

theorem parseColor_hslaTag_fixed (comps : Str)
    (hne : comps ≠ []) (hnp : ∀ c ∈ comps, c ≠ ')')
    (hlower : ∀ c ∈ comps, toLowerJs c = c)
    (hhead : ∀ c, comps.head? = some c → isWs c = false)
    (hfix : rejoin comps = comps) :
    parseColor (("hsla").data ++ ('(' :: (comps ++ [')']))) =
      some (("hsla").data ++ ('(' :: (comps ++ [')']))) := by
  set r := ("hsla").data ++ ('(' :: (comps ++ [')'])) with hr
  have hn : normColor r = r :=
    func_norm (("hsla").data) comps 'h' (by decide) rfl (by decide)
      (by decide) hlower
  obtain ⟨h1, h2, h3⟩ := func_guards r 'h' rfl hn (by decide) (by decide)
    (List.mem_append_right _ (by simp))
  have hcapA : prefCapture (("rgba(").data) r = none := by
    unfold prefCapture
    rw [if_neg ?hna]
    case hna =>
      intro he
      have hL : (r.take ((("rgba(").data).length)).getD 0 ' ' = 'h' := rfl
      rw [he] at hL
      exact absurd hL (by decide)
  have hcapA2 : prefCapture (("rgb(").data) r = none := by
    unfold prefCapture
    rw [if_neg ?hna2]
    case hna2 =>
      intro he
      have hL : (r.take ((("rgb(").data).length)).getD 0 ' ' = 'h' := rfl
      rw [he] at hL
      exact absurd hL (by decide)
  have hcap4 : rgbCapture r = none := by
    unfold rgbCapture
    rw [hcapA, hcapA2]
  have hcapB : hslCapture r = some comps := by
    unfold hslCapture
    unfold prefCapture
    have hpre : List.take ((("hsla(").data).length) r = ("hsla(").data := rfl
    rw [if_pos hpre]
    rw [show List.drop ((("hsla(").data).length) r = comps ++ [')'] from rfl]
    rw [innerCapture_concat comps hne hnp hhead]
  have htag : hslTag r = ("hsla").data := by
    unfold hslTag
    have hpre : List.take 4 r = ("hsla").data := rfl
    rw [if_pos hpre]
  rw [parseColor_hsl r comps h1 h2 h3 (by rw [hn]; exact hcap4)
    (by rw [hn]; exact hcapB), hn, htag, hfix]

/-- C10: `parseColor` is idempotent on the colors it outputs — except that
the functional branches can emit `rgb()`, `rgba()`, `hsl()` or `hsla()`
(from an all-whitespace component list), strings that `parseColor` itself
rejects.  For every successful parse whose result is not one of those four
degenerate strings, feeding the result back returns it unchanged. -/
theorem claim10_amended (s r : Str) (hs : parseColor s = some r)
    (hr : r ∉ [("rgb()").data, ("rgba()").data, ("hsl()").data,
      ("hsla()").data]) :
    parseColor r = some r := by
  simp only [List.mem_cons, List.not_mem_nil, or_false, not_or] at hr
  obtain ⟨hr1, hr2, hr3, hr4⟩ := hr
  by_cases h1 : isTransTok (normColor s) = true
  · have hres := parseColor_trans s h1
    rw [hs] at hres
    rw [Option.some.inj hres]
    decide
  rw [Bool.not_eq_true] at h1
  cases h2 : lookupColor (normColor s) cssColors with
  | some v =>
      have hres := parseColor_named s v h1 h2
      rw [hs] at hres
      obtain ⟨k, hk⟩ := lookupColor_mem _ v cssColors h2
      rw [Option.some.inj hres]
      exact cssColors_fixed (k, v) hk
  | none =>
  by_cases h3 : hexForm (normColor s) = true
  · have hres := parseColor_hex s h1 h2 h3
    rw [hs] at hres
    have hspec : ∃ d, hexValue (normColor s) = '#' :: d ∧ d.length = 6 ∧
        ∀ c ∈ d, isLowerHexDigit c = true := by
      cases hn : normColor s with
      | nil => rw [hn] at h3; exact absurd h3 (by decide)
      | cons c0 hh =>
          rw [hn] at h3
          replace h3 : (decide (c0 = '#') && (decide (hh.length = 3) ||
            decide (hh.length = 6)) && hh.all isLowerHexDigit) = true := h3
          simp only [Bool.and_eq_true, Bool.or_eq_true, decide_eq_true_eq,
            List.all_eq_true] at h3
          obtain ⟨⟨hc0, hlen⟩, hall⟩ := h3
          subst hc0
          rcases hlen with h3len | h6len
          · refine ⟨expandHex3 hh, ?_, ?_, ?_⟩
            · show (if hh.length = 3 then '#' :: expandHex3 hh
                else '#' :: hh) = '#' :: expandHex3 hh
              rw [if_pos h3len]
            · rw [expandHex3_length, h3len]
            · intro c hc
              exact hall c (expandHex3_mem hh c hc)
          · refine ⟨hh, ?_, h6len, hall⟩
            show (if hh.length = 3 then '#' :: expandHex3 hh
              else '#' :: hh) = '#' :: hh
            rw [if_neg (by omega)]
    obtain ⟨d, hd, hdlen, hdall⟩ := hspec
    rw [Option.some.inj hres, hd]
    exact parseColor_hex_fixed d hdlen hdall
  rw [Bool.not_eq_true] at h3
  cases h4 : rgbCapture (normColor s) with
  | some cap =>
      have hres := parseColor_rgb s cap h1 h2 h3 h4
      rw [hs] at hres
      have hrv := Option.some.inj hres
      have hcspec := rgbCapture_spec _ _ h4
      have hnp : ∀ c ∈ rejoin cap, c ≠ ')' :=
        rejoin_no_paren cap (fun c hc => (hcspec.2 c hc).2)
      have hlower : ∀ c ∈ rejoin cap, toLowerJs c = c :=
        rejoin_lower cap (fun c hc =>
          mem_toLowerStr_fixed (trim s) c (hcspec.2 c hc).1)
      have hhead := rejoin_head_not_ws cap
      have htagcase : rgbTag (normColor s) = ("rgba").data ∨
          rgbTag (normColor s) = ("rgb").data := by
        unfold rgbTag
        by_cases hta : (normColor s).take 4 = ("rgba").data
        · rw [if_pos hta]; exact Or.inl rfl
        · rw [if_neg hta]; exact Or.inr rfl
      rcases htagcase with htg | htg
      · have hcomps_ne : rejoin cap ≠ [] := fun he =>
          hr2 (by rw [hrv, htg, he]; decide)
        rw [hrv, htg]
        exact parseColor_rgbaTag_fixed (rejoin cap) hcomps_ne hnp hlower
          hhead (rejoin_fixed cap)
      · have hcomps_ne : rejoin cap ≠ [] := fun he =>
          hr1 (by rw [hrv, htg, he]; decide)
        rw [hrv, htg]
        exact parseColor_rgbTag_fixed (rejoin cap) hcomps_ne hnp hlower
          hhead (rejoin_fixed cap)
  | none =>
  cases h5 : hslCapture (normColor s) with
  | some cap =>
      have hres := parseColor_hsl s cap h1 h2 h3 h4 h5
      rw [hs] at hres
      have hrv := Option.some.inj hres
      have hcspec := hslCapture_spec _ _ h5
      have hnp : ∀ c ∈ rejoin cap, c ≠ ')' :=
        rejoin_no_paren cap (fun c hc => (hcspec.2 c hc).2)
      have hlower : ∀ c ∈ rejoin cap, toLowerJs c = c :=
        rejoin_lower cap (fun c hc =>
          mem_toLowerStr_fixed (trim s) c (hcspec.2 c hc).1)
      have hhead := rejoin_head_not_ws cap
      have htagcase : hslTag (normColor s) = ("hsla").data ∨
          hslTag (normColor s) = ("hsl").data := by
        unfold hslTag
        by_cases hta : (normColor s).take 4 = ("hsla").data
        · rw [if_pos hta]; exact Or.inl rfl
        · rw [if_neg hta]; exact Or.inr rfl
      rcases htagcase with htg | htg
      · have hcomps_ne : rejoin cap ≠ [] := fun he =>
          hr4 (by rw [hrv, htg, he]; decide)
        rw [hrv, htg]
        exact parseColor_hslaTag_fixed (rejoin cap) hcomps_ne hnp hlower
          hhead (rejoin_fixed cap)
      · have hcomps_ne : rejoin cap ≠ [] := fun he =>
          hr3 (by rw [hrv, htg, he]; decide)
        rw [hrv, htg]
        exact parseColor_hslTag_fixed (rejoin cap) hcomps_ne hnp hlower
          hhead (rejoin_fixed cap)
  | none =>
      have hnone : parseColor s = none :=
        (parseColor_none_iff s).mpr ⟨h1, h2, h3, h4, h5⟩
      rw [hs] at hnone
      exact Option.noConfusion hnone

/-- C10 counterexample: the functional branch is not idempotent in general —
`parseColor "rgb( )"` returns `"rgb()"` (the all-whitespace component list
collapses to nothing), but `parseColor "rgb()"` throws, because the regex
`rgba?\(\s*([^)]+)\s*\)$` requires a nonempty inner group. -/
theorem claim10_counterexample :
    parseColor (("rgb( )").data) = some (("rgb()").data) ∧
      parseColor (("rgb()").data) = none := by
  decide

/-- C10 witness: the amended idempotence theorem applied at `#0f0`. -/
theorem claim10_witness :
    parseColor (("#00ff00").data) = some (("#00ff00").data) :=
  claim10_amended (("#0f0").data) (("#00ff00").data) (by decide) (by decide)

end Altbox
